import Mathlib

/-!
Verification of the `cafs` repository (content-addressable file store with
remote differential synchronization).

The development shallowly embeds the Go sources:

* `src/remotesync/shuffle/shuffle.go` — `Permutation`, `Shuffler`,
  `StreamShuffler`, `InverseStreamShuffler`;
* `src/remotesync/receive.go` — `Builder.WriteWishList`,
  `Builder.ReconstructFileFromRequestedChunks`, `Builder.start`;
* `src/remotesync/remotesync.go` — `bitWriter`, `readChunkLength`, `readChunk`,
  varint encoding/decoding (Go `encoding/binary` semantics);
* `src/encoding.go` — `SKey.MarshalJSON` / `SKey.UnmarshalJSON`.

Parts of the repository that the claims depend on but that are not present
under `src/` (the `cafs` store interfaces and RAM store, the modern sender
`WriteChunkData`, the `adler32.MAX_CHUNK` constant, the `ChunkInfo` type with
its `emptyChunkInfo` sentinel) are modelled from the specification; each such
definition carries a doc comment starting with `Modelled from the spec:`.

Machine integers: Go `int`/`int64` values that are provably non-negative in
the modelled code paths (indices, chunk sizes) are embedded as `Nat`; values
that can be negative (decoded varints) as `Int`.  Bytes are `Nat` (< 256 where
produced by the code).
-/

namespace Cafs

/-! ## Permutations and the Shuffler (src/remotesync/shuffle/shuffle.go) -/

/-- Go `type Permutation []int` (shuffle.go). -/
abbrev Permutation := List Nat

/-- A permutation of `0..k-1` in the sense of shuffle.go's documentation:
nonempty (the code indexes `perm[idx]` with `idx < len(perm)`, so `k = 0`
would panic on the first `Put`), entries pairwise distinct and in `[0, k)`. -/
def ValidPerm (p : Permutation) : Prop :=
  p ≠ [] ∧ p.Nodup ∧ ∀ x ∈ p, x < p.length

/-- `Permutation.Inverse` (shuffle.go): `inv := make(Permutation, len(p))`
(zero-initialized), then `for i, j := range p { inv[j] = (len(p)-1+i) % len(p) }`. -/
def inverse (p : Permutation) : Permutation :=
  (List.range p.length).foldl
    (fun inv i => inv.set (p.getD i 0) ((p.length - 1 + i) % p.length))
    (List.replicate p.length 0)

/-- `type Shuffler struct` (shuffle.go).  The Go buffer is a slice of
`interface{}` of length `len(perm)` whose entries start out `nil`; it is
modelled as a total function from slot index to `Option α` (`none` = Go `nil`).
The slice is only ever indexed below `len(perm)`. -/
structure Shuffler (α : Type) where
  perm : Permutation
  buffer : Nat → Option α
  idx : Nat

variable {α β : Type}

/-- `NewShuffler` (shuffle.go). -/
def NewShuffler (p : Permutation) : Shuffler α :=
  ⟨p, fun _ => none, 0⟩

/-- `Shuffler.Put` (shuffle.go): read the current index, advance it cyclically,
store `v` into slot `perm[i]`, and return the (possibly just overwritten)
occupant of slot `i`. -/
def Shuffler.put (s : Shuffler α) (v : Option α) : Shuffler α × Option α :=
  let i := s.idx
  let idx2 := if i + 1 = s.perm.length then 0 else i + 1
  let buf2 := fun j => if j = s.perm.getD i 0 then v else s.buffer j
  (⟨s.perm, buf2, idx2⟩, buf2 i)

/-- Iterated `Put`: thread the shuffler state through a list of inputs and
collect the returned values. -/
def Shuffler.run (s : Shuffler α) : List (Option α) → Shuffler α × List (Option α)
  | [] => (s, [])
  | v :: vs =>
    let p1 := s.put v
    let p2 := p1.1.run vs
    (p2.1, p1.2 :: p2.2)

/-- The step, if any, at which buffer slot `j` was last written during the
first `t` puts (the put at step `s` writes slot `perm[s % k]`). -/
def lastStore (p : Permutation) (j : Nat) : Nat → Option Nat
  | 0 => none
  | t + 1 => if p.getD (t % p.length) 0 = j then some t else lastStore p j t

theorem lastStore_lt {p : Permutation} {j t s : Nat}
    (h : lastStore p j t = some s) : s < t := by
  induction t with
  | zero => simp [lastStore] at h
  | succ t ih =>
    rw [lastStore] at h
    split at h
    · cases h
      omega
    · exact Nat.lt_succ_of_lt (ih h)

theorem run_perm (s : Shuffler α) (ws : List (Option α)) :
    (s.run ws).1.perm = s.perm := by
  induction ws generalizing s with
  | nil => rfl
  | cons v vs ih => simpa [Shuffler.run, Shuffler.put] using ih _

theorem run_length (s : Shuffler α) (ws : List (Option α)) :
    (s.run ws).2.length = ws.length := by
  induction ws generalizing s with
  | nil => rfl
  | cons v vs ih => simpa [Shuffler.run] using ih _

theorem run_append (s : Shuffler α) (as bs : List (Option α)) :
    s.run (as ++ bs) =
      ((s.run as).1.run bs |>.1, (s.run as).2 ++ ((s.run as).1.run bs).2) := by
  induction as generalizing s with
  | nil => simp [Shuffler.run]
  | cons v vs ih => simp [Shuffler.run, ih]

theorem ValidPerm.pos {p : Permutation} (hp : ValidPerm p) : 0 < p.length := by
  cases p with
  | nil => exact absurd rfl hp.1
  | cons a l => simp

/-- Cyclic index increment: the Go `idx++; if idx == k { idx = 0 }` step. -/
theorem idx_step {k t : Nat} (hk : 0 < k) :
    (if t % k + 1 = k then 0 else t % k + 1) = (t + 1) % k := by
  rcases Nat.eq_or_lt_of_le hk with h1 | h2
  · have hk1 : k = 1 := h1.symm
    subst hk1
    simp [Nat.mod_one]
  · have h1k : (t + 1) % k = (t % k + 1) % k := by
      conv_lhs => rw [← Nat.mod_add_mod]
    rw [h1k]
    split
    · rename_i heq
      rw [heq, Nat.mod_self]
    · rename_i hne
      have hlt : t % k + 1 < k :=
        lt_of_le_of_ne (Nat.succ_le_of_lt (Nat.mod_lt _ hk)) hne
      rw [Nat.mod_eq_of_lt hlt]

/-- Two numbers congruent mod `k` lying in a window of width `k` are equal. -/
theorem eq_of_mod_eq_window {s t k : Nat} (hk : 0 < k)
    (h : s % k = t % k) (h1 : s ≤ t) (h2 : t < s + k) : s = t := by
  have hdvd : k ∣ t - s := (Nat.modEq_iff_dvd' h1).mp h
  rcases Nat.eq_zero_or_pos (t - s) with h0 | hpos
  · omega
  · have := Nat.le_of_dvd hpos hdvd
    omega

/-- A number below `2k` with known residue is the residue or the residue plus `k`. -/
theorem mod_window_cases {r k v : Nat} (hv : v < k) (hr : r % k = v)
    (hub : r < 2 * k) : r = v ∨ r = v + k := by
  rcases Nat.lt_or_ge r k with hlt | hge
  · left
    rw [Nat.mod_eq_of_lt hlt] at hr
    omega
  · right
    have hsub : r % k = (r - k) % k := by
      rw [Nat.mod_eq_sub_mod hge]
    have hrk : r - k < k := by omega
    rw [hsub, Nat.mod_eq_of_lt hrk] at hr
    omega

/-- The buffer contents and index of a shuffler that has processed `ws`. -/
theorem run_state {p : Permutation} (hp : ValidPerm p) (ws : List (Option α)) :
    ((NewShuffler p (α := α)).run ws).1.idx = ws.length % p.length ∧
    ∀ j, ((NewShuffler p (α := α)).run ws).1.buffer j =
      match lastStore p j ws.length with
      | some s => ws.getD s none
      | none => none := by
  have hk : 0 < p.length := hp.pos
  induction ws using List.reverseRecOn with
  | nil =>
    refine ⟨by simp [NewShuffler, Shuffler.run], ?_⟩
    intro j
    simp [NewShuffler, Shuffler.run, lastStore]
  | append_singleton ws v ih =>
    obtain ⟨ih1, ih2⟩ := ih
    rw [run_append]
    have hperm : ((NewShuffler p (α := α)).run ws).1.perm = p := by
      simpa [NewShuffler] using run_perm (NewShuffler p (α := α)) ws
    constructor
    · show (((NewShuffler p (α := α)).run ws).1.run [v]).1.idx = _
      simp only [Shuffler.run, Shuffler.put, hperm, ih1]
      simp only [List.length_append, List.length_singleton]
      exact idx_step hk
    · intro j
      show (((NewShuffler p (α := α)).run ws).1.run [v]).1.buffer j = _
      simp only [Shuffler.run, Shuffler.put, hperm, ih1]
      simp only [List.length_append, List.length_singleton]
      rw [lastStore]
      by_cases hc : p.getD (ws.length % p.length) 0 = j
      · rw [if_pos hc.symm, if_pos hc]
        have h1 : (ws ++ [v]).getD ws.length none = v := by
          rw [List.getD_append_right ws [v] none ws.length (le_refl _)]
          simp
        simp [h1]
      · have hc' : ¬ j = p.getD (ws.length % p.length) 0 := fun h => hc h.symm
        rw [if_neg hc', if_neg hc]
        rw [ih2 j]
        cases hls : lastStore p j ws.length with
        | none => simp
        | some s =>
          have hs : s < ws.length := lastStore_lt hls
          simp only []
          rw [List.getD_append ws [v] none s hs]

/-- The value returned by the `t`-th `Put` of a fresh shuffler processing `ws`:
it is the input most recently stored into the slot being read, if any. -/
theorem run_output {p : Permutation} (hp : ValidPerm p) (ws : List (Option α))
    {t : Nat} (ht : t < ws.length) :
    ((NewShuffler p (α := α)).run ws).2.getD t none =
      match lastStore p (t % p.length) (t + 1) with
      | some s => ws.getD s none
      | none => none := by
  have hk : 0 < p.length := hp.pos
  have hsplit : ws = ws.take t ++ ws.getD t none :: ws.drop (t + 1) := by
    rw [List.getD_eq_getElem ws none ht]
    conv_lhs => rw [← List.take_append_drop t ws]
    rw [List.getElem_cons_drop ws t ht]
  have hlen : (ws.take t).length = t := by
    rw [List.length_take]
    exact Nat.min_eq_left (Nat.le_of_lt ht)
  have houtlen : ((NewShuffler p (α := α)).run (ws.take t)).2.length = t := by
    rw [run_length, hlen]
  conv_lhs => rw [hsplit, run_append]
  rw [List.getD_append_right _ _ none t (le_of_eq houtlen)]
  rw [houtlen, Nat.sub_self]
  obtain ⟨hidx, hbuf⟩ := run_state hp (α := α) (ws.take t)
  have hperm : ((NewShuffler p (α := α)).run (ws.take t)).1.perm = p := by
    simpa [NewShuffler] using run_perm (NewShuffler p (α := α)) (ws.take t)
  simp only [Shuffler.run, Shuffler.put, hperm, hidx, hlen]
  rw [List.getD_cons_zero]
  rw [lastStore]
  by_cases hc : p.getD (t % p.length) 0 = t % p.length
  · rw [if_pos hc.symm, if_pos hc]
  · have hc' : ¬ t % p.length = p.getD (t % p.length) 0 := fun h => hc h.symm
    rw [if_neg hc', if_neg hc]
    have hbuf' := hbuf (t % p.length)
    rw [hlen] at hbuf'
    rw [hbuf']
    cases hls : lastStore p (t % p.length) t with
    | none => simp
    | some s =>
      have hs : s < t := lastStore_lt hls
      simp only []
      rw [List.getD_eq_getElem?_getD, List.getD_eq_getElem?_getD,
        List.getElem?_take, if_pos hs]

theorem validPerm_getD_lt {p : Permutation} (hp : ValidPerm p) {a : Nat}
    (ha : a < p.length) : p.getD a 0 < p.length := by
  apply hp.2.2
  rw [List.getD_eq_getElem p 0 ha]
  exact List.getElem_mem ha

theorem validPerm_getD_inj {p : Permutation} (hp : ValidPerm p) {a b : Nat}
    (ha : a < p.length) (hb : b < p.length)
    (h : p.getD a 0 = p.getD b 0) : a = b := by
  have hinj := List.nodup_iff_injective_get.mp hp.2.1
  have h2 : p.get ⟨a, ha⟩ = p.get ⟨b, hb⟩ := by
    rw [List.getD_eq_getElem p 0 ha, List.getD_eq_getElem p 0 hb] at h
    simpa [List.get_eq_getElem] using h
  have := hinj h2
  simpa using congrArg Fin.val this

theorem validPerm_surj {p : Permutation} (hp : ValidPerm p) {j : Nat}
    (hj : j < p.length) : ∃ i, i < p.length ∧ p.getD i 0 = j := by
  classical
  have hsub : p.toFinset ⊆ Finset.range p.length := by
    intro x hx
    rw [List.mem_toFinset] at hx
    exact Finset.mem_range.mpr (hp.2.2 x hx)
  have hcard : (Finset.range p.length).card ≤ p.toFinset.card := by
    rw [List.toFinset_card_of_nodup hp.2.1, Finset.card_range]
  have heq : p.toFinset = Finset.range p.length :=
    Finset.eq_of_subset_of_card_le hsub hcard
  have hjmem : j ∈ p := by
    rw [← List.mem_toFinset, heq]
    exact Finset.mem_range.mpr hj
  obtain ⟨n, hn⟩ := List.mem_iff_get.mp hjmem
  refine ⟨n.1, n.2, ?_⟩
  rw [List.getD_eq_getElem p 0 n.2]
  simpa [List.get_eq_getElem] using hn

/-- Characterization of `lastStore`: slot `j` was last written at step `s`
(during the first `t+1` steps) iff `s` lies in the window `(t-k, t]` and the
permutation routes step `s` to slot `j`. -/
theorem lastStore_some_iff {p : Permutation} (hp : ValidPerm p) {j s t : Nat} :
    lastStore p j (t + 1) = some s ↔
      s ≤ t ∧ t < s + p.length ∧ p.getD (s % p.length) 0 = j := by
  have hk : 0 < p.length := hp.pos
  induction t with
  | zero =>
    rw [lastStore, Nat.zero_mod]
    by_cases hc : p.getD 0 0 = j
    · rw [if_pos hc]
      constructor
      · intro h
        cases h
        exact ⟨le_refl 0, by omega, by rw [Nat.zero_mod]; exact hc⟩
      · rintro ⟨h1, h2, h3⟩
        have hs0 : s = 0 := Nat.le_zero.mp h1
        subst hs0
        rfl
    · rw [if_neg hc]
      constructor
      · intro h
        cases h
      · rintro ⟨h1, h2, h3⟩
        have hs0 : s = 0 := Nat.le_zero.mp h1
        subst hs0
        rw [Nat.zero_mod] at h3
        exact absurd h3 hc
  | succ t ih =>
    rw [lastStore]
    by_cases hc : p.getD ((t + 1) % p.length) 0 = j
    · rw [if_pos hc]
      constructor
      · intro h
        cases h
        exact ⟨le_refl _, by omega, hc⟩
      · rintro ⟨h1, h2, h3⟩
        have hmod : s % p.length = (t + 1) % p.length :=
          validPerm_getD_inj hp (Nat.mod_lt _ hk) (Nat.mod_lt _ hk)
            (h3.trans hc.symm)
        have heq : s = t + 1 := eq_of_mod_eq_window hk hmod h1 h2
        rw [heq]
    · rw [if_neg hc]
      constructor
      · intro h
        obtain ⟨h1, h2, h3⟩ := ih.mp h
        refine ⟨Nat.le_succ_of_le h1, ?_, h3⟩
        rcases Nat.lt_or_ge (t + 1) (s + p.length) with hlt | hge
        · exact hlt
        · exfalso
          have heq : t + 1 = s + p.length := by omega
          have : (t + 1) % p.length = s % p.length := by
            rw [heq, Nat.add_mod_right]
          rw [this] at hc
          exact hc h3
      · rintro ⟨h1, h2, h3⟩
        apply ih.mpr
        have hst : s ≠ t + 1 := by
          intro he
          subst he
          exact hc h3
        exact ⟨by omega, by omega, h3⟩

/-- The step at which the input of step `s` is emitted by the shuffler:
the unique step `≡ p[s % k] (mod k)` in the window `[s, s+k)`. -/
def emitAt (p : Permutation) (s : Nat) : Nat :=
  s + (p.getD (s % p.length) 0 + p.length - s % p.length) % p.length

theorem emitAt_ge {p : Permutation} (s : Nat) : s ≤ emitAt p s :=
  Nat.le_add_right _ _

theorem emitAt_lt {p : Permutation} (hp : ValidPerm p) (s : Nat) :
    emitAt p s < s + p.length := by
  have := Nat.mod_lt (p.getD (s % p.length) 0 + p.length - s % p.length) hp.pos
  unfold emitAt
  omega

theorem emitAt_mod {p : Permutation} (hp : ValidPerm p) (s : Nat) :
    emitAt p s % p.length = p.getD (s % p.length) 0 := by
  have hk : 0 < p.length := hp.pos
  have ha : s % p.length < p.length := Nat.mod_lt _ hk
  have hb : p.getD (s % p.length) 0 < p.length := validPerm_getD_lt hp ha
  unfold emitAt
  rw [Nat.add_comm s _, Nat.mod_add_mod]
  have h := Nat.div_add_mod s p.length
  set m := p.length * (s / p.length) with hmdef
  have e1 : p.getD (s % p.length) 0 + p.length - s % p.length + s =
      m + (p.length + p.getD (s % p.length) 0) := by omega
  rw [e1, hmdef, Nat.mul_add_mod, Nat.add_mod_left,
    Nat.mod_eq_of_lt hb]

/-- If step `t` reads the value stored at step `s`, then `t = emitAt p s`. -/
theorem emitAt_unique {p : Permutation} (hp : ValidPerm p) {s t : Nat}
    (h : lastStore p (t % p.length) (t + 1) = some s) : t = emitAt p s := by
  have hk : 0 < p.length := hp.pos
  obtain ⟨h1, h2, h3⟩ := (lastStore_some_iff hp).mp h
  have hmod : emitAt p s % p.length = t % p.length := by
    rw [emitAt_mod hp, h3]
  have hge := emitAt_ge (p := p) s
  have hlt := emitAt_lt hp s
  rcases Nat.le_total t (emitAt p s) with hle | hle
  · exact (eq_of_mod_eq_window hk (hmod.symm) hle (by omega)).symm |>.symm
  · exact (eq_of_mod_eq_window hk hmod hle (by omega)).symm

/-- The forward half of the emission law: the output at step `emitAt p s`
(if within range) is the input of step `s`. -/
theorem run_output_emitAt {p : Permutation} (hp : ValidPerm p)
    (ws : List (Option α)) {s : Nat}
    (hemit : emitAt p s < ws.length) :
    ((NewShuffler p (α := α)).run ws).2.getD (emitAt p s) none = ws.getD s none := by
  rw [run_output hp ws hemit]
  have hls : lastStore p (emitAt p s % p.length) (emitAt p s + 1) = some s := by
    rw [lastStore_some_iff hp]
    exact ⟨emitAt_ge s, emitAt_lt hp s, (emitAt_mod hp s).symm⟩
  rw [hls]

/-! ## The inverse permutation (`Permutation.Inverse`, shuffle.go) -/

theorem inverse_aux_spec {p : Permutation} (hp : ValidPerm p) (m : Nat)
    (hm : m ≤ p.length) :
    ((List.range m).foldl
        (fun inv i => inv.set (p.getD i 0) ((p.length - 1 + i) % p.length))
        (List.replicate p.length 0)).length = p.length ∧
    ∀ i < m, ((List.range m).foldl
        (fun inv i => inv.set (p.getD i 0) ((p.length - 1 + i) % p.length))
        (List.replicate p.length 0)).getD (p.getD i 0) 0 =
      (p.length - 1 + i) % p.length := by
  induction m with
  | zero => simp [List.range_zero]
  | succ m ih =>
    obtain ⟨ihl, ihv⟩ := ih (Nat.le_of_succ_le hm)
    rw [List.range_succ, List.foldl_append]
    set L := (List.range m).foldl
      (fun inv i => inv.set (p.getD i 0) ((p.length - 1 + i) % p.length))
      (List.replicate p.length 0) with hL
    refine ⟨by simpa [List.length_set] using ihl, ?_⟩
    intro i hi
    have hmk : m < p.length := hm
    have hpm : p.getD m 0 < p.length := validPerm_getD_lt hp hmk
    rcases Nat.lt_or_ge i m with him | him
    · have hik : i < p.length := Nat.lt_trans him hmk
      have hne : p.getD m 0 ≠ p.getD i 0 := by
        intro he
        exact absurd (validPerm_getD_inj hp hmk hik he) (by omega)
      simp only [List.foldl_cons, List.foldl_nil]
      rw [List.getD_eq_getElem?_getD, List.getElem?_set_ne hne,
        ← List.getD_eq_getElem?_getD]
      exact ihv i him
    · have hieq : i = m := by omega
      subst hieq
      simp only [List.foldl_cons, List.foldl_nil]
      rw [List.getD_eq_getElem?_getD,
        List.getElem?_set_self (by rw [ihl]; exact hpm)]
      rfl

theorem inverse_length (p : Permutation) : (inverse p).length = p.length := by
  unfold inverse
  induction (List.range p.length) using List.reverseRecOn with
  | nil => simp
  | append_singleton xs x ih => simpa [List.foldl_append, List.length_set] using ih

/-- The defining equation of `Permutation.Inverse` (shuffle.go line 80):
`inv[p[i]] = (len(p)-1+i) % len(p)`. -/
theorem inverse_getD {p : Permutation} (hp : ValidPerm p) {i : Nat}
    (hi : i < p.length) : (inverse p).getD (p.getD i 0) 0 =
      (p.length - 1 + i) % p.length :=
  (inverse_aux_spec hp p.length (le_refl _)).2 i hi

theorem inverse_valid {p : Permutation} (hp : ValidPerm p) :
    ValidPerm (inverse p) := by
  have hk : 0 < p.length := hp.pos
  have hlen : (inverse p).length = p.length := inverse_length p
  refine ⟨List.ne_nil_of_length_pos (by omega), ?_, ?_⟩
  · -- Nodup via injectivity of positions
    rw [List.nodup_iff_injective_get]
    intro a b hab
    have ha : a.1 < p.length := by have := a.2; omega
    have hb : b.1 < p.length := by have := b.2; omega
    obtain ⟨ia, hia, hpa⟩ := validPerm_surj hp ha
    obtain ⟨ib, hib, hpb⟩ := validPerm_surj hp hb
    have hva : (inverse p).getD a.1 0 = (p.length - 1 + ia) % p.length := by
      rw [← hpa]; exact inverse_getD hp hia
    have hvb : (inverse p).getD b.1 0 = (p.length - 1 + ib) % p.length := by
      rw [← hpb]; exact inverse_getD hp hib
    have hgetab : (inverse p).getD a.1 0 = (inverse p).getD b.1 0 := by
      rw [List.getD_eq_getElem _ 0 a.2, List.getD_eq_getElem _ 0 b.2]
      simpa [List.get_eq_getElem] using hab
    have hmm : (p.length - 1 + ia) % p.length = (p.length - 1 + ib) % p.length := by
      rw [← hva, ← hvb, hgetab]
    have : ia = ib := by
      rcases Nat.le_total (p.length - 1 + ia) (p.length - 1 + ib) with hle | hle
      · have := eq_of_mod_eq_window hk hmm hle (by omega)
        omega
      · have := eq_of_mod_eq_window hk hmm.symm hle (by omega)
        omega
    subst this
    have : a.1 = b.1 := by rw [← hpa, ← hpb]
    exact Fin.ext this
  · intro x hx
    rw [hlen]
    unfold inverse at hx
    -- every entry is either an initial 0 or some (k-1+i) % k
    have : ∀ xs : List Nat, ∀ L : List Nat, (∀ y ∈ L, y < p.length) →
        ∀ y ∈ xs.foldl
          (fun inv i => inv.set (p.getD i 0) ((p.length - 1 + i) % p.length)) L,
        y < p.length := by
      intro xs
      induction xs with
      | nil => intro L hL y hy; exact hL y hy
      | cons a as ihxs =>
        intro L hL y hy
        simp only [List.foldl_cons] at hy
        refine ihxs _ ?_ y hy
        intro z hz
        rcases List.mem_or_eq_of_mem_set hz with hz1 | hz2
        · exact hL z hz1
        · rw [hz2]; exact Nat.mod_lt _ hk
    refine this (List.range p.length) (List.replicate p.length 0) ?_ x hx
    intro y hy
    rw [List.mem_replicate] at hy
    omega

/-- The composed forward-then-inverse delay is exactly `k - 1`. -/
theorem delay_eq {p : Permutation} (hp : ValidPerm p) (s : Nat) :
    emitAt (inverse p) (emitAt p s) = s + (p.length - 1) := by
  have hk : 0 < p.length := hp.pos
  have hlen : (inverse p).length = p.length := inverse_length p
  have ha : s % p.length < p.length := Nat.mod_lt _ hk
  set a := s % p.length with hadef
  set b := p.getD a 0 with hbdef
  have hb : b < p.length := validPerm_getD_lt hp ha
  have humod : emitAt p s % p.length = b := emitAt_mod hp s
  have hq : (inverse p).getD b 0 = (p.length - 1 + a) % p.length :=
    inverse_getD hp ha
  set u := emitAt p s with hudef
  have houter : emitAt (inverse p) u =
      u + ((inverse p).getD (u % (inverse p).length) 0 + (inverse p).length -
        u % (inverse p).length) % (inverse p).length := rfl
  rw [houter, hlen, humod, hq]
  set k := p.length with hkdef
  set e1 := (b + k - a) % k with he1def
  have he1lt : e1 < k := Nat.mod_lt _ hk
  have he2eq : ((k - 1 + a) % k + k - b) % k = (k - 1 + a + k - b) % k := by
    have h1 : (k - 1 + a) % k + k - b = (k - 1 + a) % k + (k - b) := by omega
    have h2 : k - 1 + a + k - b = k - 1 + a + (k - b) := by omega
    rw [h1, h2, Nat.mod_add_mod]
  rw [he2eq]
  set e2 := (k - 1 + a + k - b) % k with he2def
  have he2lt : e2 < k := Nat.mod_lt _ hk
  have hsum : (e1 + e2) % k = (k - 1) % k := by
    rw [he1def, he2def, Nat.mod_add_mod, Nat.add_mod_mod]
    have h3 : b + k - a + (k - 1 + a + k - b) = k - 1 + 2 * k := by omega
    rw [h3, Nat.add_mul_mod_self_right]
  have hsum2 : e1 + e2 = k - 1 := by
    rw [Nat.mod_eq_of_lt (by omega : k - 1 < k)] at hsum
    rcases mod_window_cases (by omega : k - 1 < k) hsum (by omega) with h | h
    · exact h
    · omega
  have huval : u = s + e1 := rfl
  omega

/-! ## Stream shufflers (`NewStreamShuffler` / `NewInverseStreamShuffler`, shuffle.go)

A `streamShuffler` makes exactly one `Put` on its `Shuffler` per element and one
per `End` drain step, and invokes the consumer exactly once per `Put` (with the
placeholder substituted for `nil`).  The observable behaviour towards the
consumer is therefore fully described by the list of consumed values, which the
following definitions compute. -/

/-- The raw values emitted by a fresh shuffler fed `xs` followed by the
`k - 1` `nil`s pushed by `streamShuffler.End`. -/
def shufOuts (p : Permutation) (xs : List α) : List (Option α) :=
  ((NewShuffler p (α := α)).run (xs.map some ++ List.replicate (p.length - 1) none)).2

/-- The sequence of values passed to the consumer by a forward
`NewStreamShuffler(p, placeholder, consume)` fed `xs` and then ended:
each emitted `nil` is replaced by the placeholder (`apply` in shuffle.go). -/
def fwdConsumed (p : Permutation) (ph : α) (xs : List α) : List α :=
  (shufOuts p xs).map (fun o => o.getD ph)

/-- The `apply` function of `NewInverseStreamShuffler`: `nil` and placeholder
values are dropped, everything else goes to the consumer. -/
def invFilter [DecidableEq α] (ph : α) (o : Option α) : Option α :=
  match o with
  | none => none
  | some x => if x = ph then none else some x

/-- The sequence of values passed to the consumer by an inverse
`NewInverseStreamShuffler(p, placeholder, consume)` fed `ys` and then ended. -/
def invConsumed [DecidableEq α] (p : Permutation) (ph : α) (ys : List α) : List α :=
  (((NewShuffler (inverse p) (α := α)).run
      (ys.map some ++ List.replicate ((inverse p).length - 1) none)).2).filterMap
    (invFilter ph)

theorem length_shufOuts (p : Permutation) (xs : List α) :
    (shufOuts p xs).length = xs.length + (p.length - 1) := by
  unfold shufOuts
  rw [run_length]
  simp

theorem length_fwdConsumed (p : Permutation) (ph : α) (xs : List α) :
    (fwdConsumed p ph xs).length = xs.length + (p.length - 1) := by
  unfold fwdConsumed
  rw [List.length_map, length_shufOuts]

theorem filterMap_invFilter_replicate_none [DecidableEq α] (ph : α) (m : Nat) :
    (List.replicate m (none : Option α)).filterMap (invFilter ph) = [] := by
  induction m with
  | zero => rfl
  | succ m ih => simpa [List.replicate_succ, invFilter] using ih

/-- Pointwise description of the inverse shuffler's emissions when fed the
forward shuffler's consumed stream: position `s + (k-1)` carries `xs[s]`, every
other position carries `nil` or the placeholder. -/
theorem inv_out_char [DecidableEq α] {p : Permutation} (hp : ValidPerm p)
    (ph : α) (xs : List α) (hxs : ∀ x ∈ xs, x ≠ ph) (t : Nat)
    (ht : t < xs.length + 2 * (p.length - 1)) :
    invFilter ph
      (((NewShuffler (inverse p) (α := α)).run
        ((fwdConsumed p ph xs).map some ++
          List.replicate ((inverse p).length - 1) none)).2.getD t none) =
    (List.replicate (p.length - 1) (none : Option α) ++ xs.map some ++
      List.replicate (p.length - 1) none).getD t none := by
  have hk : 0 < p.length := hp.pos
  have hq : ValidPerm (inverse p) := inverse_valid hp
  have hlen : (inverse p).length = p.length := inverse_length p
  set k := p.length with hkdef
  set n := xs.length with hndef
  set ys := fwdConsumed p ph xs with hysdef
  have hyslen : ys.length = n + (k - 1) := length_fwdConsumed p ph xs
  set ws2 := ys.map some ++ List.replicate ((inverse p).length - 1)
    (none : Option α) with hws2def
  have hws2len : ws2.length = n + (k - 1) + (k - 1) := by
    rw [hws2def]
    simp [hyslen, hlen]
  set ws := xs.map some ++ List.replicate (k - 1) (none : Option α) with hwsdef
  have hwslen : ws.length = n + (k - 1) := by
    rw [hwsdef]; simp
  -- value of ws2 at a position below n + (k-1): the consumed forward value
  have hws2at : ∀ u, u < n + (k - 1) →
      ws2.getD u none = some (((shufOuts p xs).getD u none).getD ph) := by
    intro u hu
    have hu2 : u < ys.length := by omega
    have hu3 : u < (shufOuts p xs).length := by rw [length_shufOuts]; omega
    have hval : ys.getD u ph = ((shufOuts p xs).getD u none).getD ph := by
      rw [hysdef]
      unfold fwdConsumed
      rw [List.getD_eq_getElem?_getD, List.getElem?_map, List.getElem?_eq_getElem hu3]
      simp only [Option.map_some', Option.getD_some]
      rw [List.getD_eq_getElem _ none hu3]
    rw [hws2def, List.getD_append _ _ none u (by rw [List.length_map, hyslen]; omega)]
    rw [List.getD_eq_getElem?_getD, List.getElem?_map, List.getElem?_eq_getElem hu2]
    simp only [Option.map_some', Option.getD_some]
    rw [← hval, List.getD_eq_getElem ys ph hu2]
  have hrepl : ∀ m t' : Nat, (List.replicate m (none : Option α)).getD t' none = none := by
    intro m t'
    rw [List.getD_eq_getElem?_getD, List.getElem?_replicate]
    split <;> rfl
  -- the right-hand side pattern
  set R := List.replicate (k - 1) (none : Option α) ++ xs.map some ++
    List.replicate (k - 1) none with hRdef
  have hRat1 : ∀ t', t' < k - 1 → R.getD t' none = none := by
    intro t' ht'
    rw [hRdef]
    rw [List.getD_append _ _ none t' (by simp [List.length_append]; omega)]
    rw [List.getD_append _ _ none t' (by simp; omega)]
    exact hrepl _ _
  have hRat2 : ∀ s, s < n → R.getD (s + (k - 1)) none = some (xs.getD s ph) := by
    intro s hs
    rw [hRdef]
    rw [List.getD_append _ _ none (s + (k - 1)) (by simp [List.length_append]; omega)]
    rw [List.getD_append_right _ _ none (s + (k - 1)) (by rw [List.length_replicate]; omega)]
    simp only [List.length_replicate]
    have he : s + (k - 1) - (k - 1) = s := by omega
    rw [he, List.getD_eq_getElem?_getD, List.getElem?_map, List.getElem?_eq_getElem hs]
    simp only [Option.map_some', Option.getD_some]
    rw [List.getD_eq_getElem xs ph hs]
  have hRat3 : ∀ t', n + (k - 1) ≤ t' → R.getD t' none = none := by
    intro t' ht'
    rw [hRdef]
    rw [List.getD_append_right _ _ none t' (by simp [List.length_append]; omega)]
    exact hrepl _ _
  -- left-hand side via the output formula for the inverse shuffler
  have hout := run_output (α := α) hq ws2 (t := t) (by rw [hws2len]; omega)
  by_cases hreg : k - 1 ≤ t ∧ t - (k - 1) < n
  · -- real region: t = s + (k - 1)
    obtain ⟨hr1, hr2⟩ := hreg
    set s := t - (k - 1) with hsdef
    have hts : t = s + (k - 1) := by omega
    set u := emitAt p s with hudef
    have hu1 : s ≤ u := emitAt_ge s
    have hu2 : u < s + k := emitAt_lt hp s
    have humod : u % k = p.getD (s % k) 0 := emitAt_mod hp s
    have hub : p.getD (s % k) 0 < k := validPerm_getD_lt hp (Nat.mod_lt _ hk)
    -- the inverse shuffler emits input u at step t
    have hls : lastStore (inverse p) (t % (inverse p).length) (t + 1) = some u := by
      rw [lastStore_some_iff hq, hlen]
      refine ⟨by omega, by omega, ?_⟩
      rw [humod, inverse_getD hp (Nat.mod_lt _ hk)]
      rw [hts]
      have h1 : (s + (k - 1)) % k = (s % k + (k - 1)) % k := by
        rw [Nat.mod_add_mod]
      rw [h1, Nat.add_comm (s % k) (k - 1)]
    have hlhs : ((NewShuffler (inverse p) (α := α)).run ws2).2.getD t none =
        ws2.getD u none := by
      rw [hout, hls]
    have huws2 : u < n + (k - 1) := by omega
    -- the forward shuffler emits xs[s] at step u
    have hfwd : (shufOuts p xs).getD u none = ws.getD s none := by
      rw [hudef]
      unfold shufOuts
      rw [← hwsdef]
      exact run_output_emitAt hp ws (by rw [hwslen]; omega)
    have hwsat : ws.getD s none = some (xs.getD s ph) := by
      rw [hwsdef, List.getD_append _ _ none s (by simp; omega)]
      rw [List.getD_eq_getElem?_getD, List.getElem?_map, List.getElem?_eq_getElem hr2]
      simp only [Option.map_some', Option.getD_some]
      rw [List.getD_eq_getElem xs ph hr2]
    rw [hlhs, hws2at u huws2, hfwd, hwsat]
    have hmem : xs.getD s ph ∈ xs := by
      rw [List.getD_eq_getElem xs ph hr2]
      exact List.getElem_mem hr2
    have hne := hxs _ hmem
    have hne2 : ¬ xs[s]?.getD ph = ph := by
      rw [← List.getD_eq_getElem?_getD]
      exact hne
    rw [hts, hRat2 s hr2]
    simp [invFilter, hne, hne2]
  · -- placeholder region: nothing real is emitted at step t
    have hRnone : R.getD t none = none := by
      rcases Nat.lt_or_ge t (k - 1) with h | h
      · exact hRat1 t h
      · exact hRat3 t (by omega)
    rw [hRnone]
    cases hls : lastStore (inverse p) (t % (inverse p).length) (t + 1) with
    | none =>
      have hlhs : ((NewShuffler (inverse p) (α := α)).run ws2).2.getD t none = none := by
        rw [hout, hls]
      rw [hlhs]
      rfl
    | some u =>
      have hlhs : ((NewShuffler (inverse p) (α := α)).run ws2).2.getD t none =
          ws2.getD u none := by
        rw [hout, hls]
      rw [hlhs]
      obtain ⟨hu1, hu2, hu3⟩ := (lastStore_some_iff hq).mp hls
      rcases Nat.lt_or_ge u (n + (k - 1)) with huin | huout
      · rw [hws2at u huin]
        cases hfo : (shufOuts p xs).getD u none with
        | none => simp [invFilter]
        | some x =>
          exfalso
          -- a real forward emission at u would place t in the real region
          have hurun := run_output (α := α) hp ws (t := u) (by omega)
          unfold shufOuts at hfo
          rw [← hwsdef] at hfo
          rw [hurun] at hfo
          rcases hls2 : lastStore p (u % p.length) (u + 1) with _ | s2
          · rw [hls2] at hfo
            have hfo2 : (none : Option α) = some x := hfo
            cases hfo2
          · rw [hls2] at hfo
            have hfo2 : ws.getD s2 none = some x := hfo
            have hs2 : s2 < n := by
              by_contra hge
              push_neg at hge
              have hnil : ws.getD s2 none = none := by
                rw [hwsdef, List.getD_append_right _ _ none s2 (by simp; omega)]
                rw [List.getD_eq_getElem?_getD, List.getElem?_replicate]
                split <;> rfl
              rw [hnil] at hfo2
              cases hfo2
            have hueq : u = emitAt p s2 := emitAt_unique hp hls2
            have hteq : t = emitAt (inverse p) u := emitAt_unique hq hls
            have : t = s2 + (k - 1) := by
              rw [hteq, hueq, delay_eq hp]
            omega
      · -- u points into the drain part of ws2: the value is nil
        have hnil : ws2.getD u none = none := by
          rw [hws2def, List.getD_append_right _ _ none u
            (by rw [List.length_map, hyslen]; omega)]
          rw [List.getD_eq_getElem?_getD, List.getElem?_replicate]
          split <;> rfl
        rw [hnil]
        rfl

/-- Round trip of the stream shufflers: shuffling then unshuffling restores
the original sequence, provided no element equals the placeholder. -/
theorem round_trip_core [DecidableEq α] {p : Permutation} (hp : ValidPerm p)
    (ph : α) (xs : List α) (hxs : ∀ x ∈ xs, x ≠ ph) :
    invConsumed p ph (fwdConsumed p ph xs) = xs := by
  have hlen : (inverse p).length = p.length := inverse_length p
  set k := p.length with hkdef
  set n := xs.length with hndef
  unfold invConsumed
  set zs := ((NewShuffler (inverse p) (α := α)).run
    ((fwdConsumed p ph xs).map some ++
      List.replicate ((inverse p).length - 1) none)).2 with hzsdef
  have hzslen : zs.length = n + 2 * (k - 1) := by
    rw [hzsdef, run_length, List.length_append, List.length_map,
      List.length_replicate, length_fwdConsumed, hlen]
    omega
  have hmap : zs.map (invFilter ph) =
      List.replicate (k - 1) (none : Option α) ++ xs.map some ++
        List.replicate (k - 1) none := by
    apply List.ext_getElem
    · rw [List.length_map, hzslen]
      simp [List.length_append]
      omega
    · intro t h1 h2
      have ht : t < n + 2 * (k - 1) := by
        rw [List.length_map, hzslen] at h1
        exact h1
      have hta : t < zs.length := by omega
      rw [← List.getD_eq_getElem _ none h1, ← List.getD_eq_getElem _ none h2]
      have hmapat : (zs.map (invFilter ph)).getD t none =
          invFilter ph (zs.getD t none) := by
        rw [List.getD_eq_getElem?_getD, List.getElem?_map,
          List.getElem?_eq_getElem hta]
        simp only [Option.map_some', Option.getD_some]
        rw [List.getD_eq_getElem zs none hta]
      rw [hmapat]
      exact inv_out_char hp ph xs hxs t ht
  have hfm : zs.filterMap (invFilter ph) = (zs.map (invFilter ph)).filterMap id := by
    rw [List.filterMap_map]
    rfl
  rw [hfm, hmap]
  rw [List.filterMap_append, List.filterMap_append]
  have e1 : (List.replicate (k - 1) (none : Option α)).filterMap id = [] := by
    induction (k - 1) with
    | zero => rfl
    | succ m ih => simpa [List.replicate_succ] using ih
  have e2 : (xs.map some).filterMap id = xs := by
    rw [List.filterMap_map]
    simpa using List.filterMap_some xs
  rw [e1, e2]
  simp

/-! ### Naturality of the shuffler in its element type -/

def mapShuffler (f : α → β) (s : Shuffler α) : Shuffler β :=
  ⟨s.perm, fun j => (s.buffer j).map f, s.idx⟩

theorem put_map (f : α → β) (s : Shuffler α) (v : Option α) :
    (mapShuffler f s).put (v.map f) =
      (mapShuffler f (s.put v).1, ((s.put v).2).map f) := by
  unfold Shuffler.put mapShuffler
  simp only []
  refine congrArg₂ Prod.mk ?_ ?_
  · show Shuffler.mk _ _ _ = Shuffler.mk _ _ _
    congr 1
    funext j
    split <;> rfl
  · split <;> rfl

theorem run_map (f : α → β) : ∀ (ws : List (Option α)) (s : Shuffler α),
    (mapShuffler f s).run (ws.map (Option.map f)) =
      (mapShuffler f (s.run ws).1, ((s.run ws).2).map (Option.map f)) := by
  intro ws
  induction ws with
  | nil => intro s; simp [Shuffler.run]
  | cons v vs ih =>
    intro s
    simp only [List.map_cons, Shuffler.run]
    rw [put_map, ih]

theorem shufOuts_map (f : α → β) (p : Permutation) (xs : List α) :
    shufOuts p (xs.map f) = (shufOuts p xs).map (Option.map f) := by
  unfold shufOuts
  have h1 : (xs.map f).map some ++ List.replicate (p.length - 1) none =
      (xs.map some ++ List.replicate (p.length - 1)
        (none : Option α)).map (Option.map f) := by
    rw [List.map_append, List.map_map, List.map_map, List.map_replicate]
    congr 1
  have h2 : (NewShuffler p : Shuffler β) = mapShuffler f (NewShuffler p) := by
    unfold NewShuffler mapShuffler
    simp
  rw [h1, h2, run_map]

/-! ## Errors of the remotesync package

Sentinel errors and error constructors appearing in remotesync.go and
receive.go, together with the `io` errors the code compares against. -/

inductive GoErr where
  /-- `io.EOF` -/
  | eof
  /-- `io.ErrUnexpectedEOF` -/
  | unexpectedEOF
  /-- `encoding/binary`: varint overflows a 64-bit integer -/
  | overflow
  /-- `"Invalid chunk length: %v"` (remotesync.go `readChunk`) -/
  | invalidChunkLength (l : Int)
  /-- `"unsolicited chunk data"` (receive.go) -/
  | unsolicitedChunkData
  /-- `ErrUnexpectedChunk` -/
  | unexpectedChunk
  /-- `ErrDisposed` -/
  | disposed
  /-- dereferencing the `nil` file returned by a failed `storage.Get`
  whose error is ignored (receive.go line 257) -/
  | nilFile
  deriving DecidableEq, Repr

/-! ## Varint encoding (Go `encoding/binary`, used by remotesync.go)

`writeVarint` uses `binary.PutVarint` (zigzag + LEB128); `readVarint` uses
`binary.ReadVarint` over a one-byte reader.  Bytes are `Nat`s below 256. -/

/-- `binary.PutUvarint`'s loop bounded by the 10-byte buffer (`MaxVarintLen64`);
every `uint64` needs at most 10 groups, so fuel 10 is exact for `v < 2^64`. -/
def putUvarintAux : Nat → Nat → List Nat
  | 0, _ => []
  | fuel + 1, v => if v < 128 then [v] else (v % 128 + 128) :: putUvarintAux fuel (v / 128)

def putUvarint (v : Nat) : List Nat := putUvarintAux 10 v

/-- The zigzag step of `binary.PutVarint`:
`ux := uint64(x) << 1; if x < 0 { ux = ^ux }`. -/
def zigzag (x : Int) : Nat :=
  if x < 0 then (2 * (-x) - 1).toNat else (2 * x).toNat

def putVarint (x : Int) : List Nat := putUvarint (zigzag x)

/-- `binary.ReadUvarint`: at most `MaxVarintLen64 = 10` byte reads; `i` is the
loop counter, `x` the accumulator, `s` the shift.  Go's `x |= (b&0x7f) << s` is
an addition here because the accumulated `x` occupies only the low `s` bits.
An EOF after at least one byte becomes `io.ErrUnexpectedEOF`. -/
def readUvarintAux : List Nat → Nat → Nat → Nat → Except GoErr (Nat × List Nat)
  | [], i, _, _ =>
    if 10 ≤ i then .error .overflow
    else .error (if 0 < i then .unexpectedEOF else .eof)
  | b :: rest, i, x, s =>
    if 10 ≤ i then .error .overflow
    else if b < 128 then
      if i = 9 ∧ 1 < b then .error .overflow
      else .ok (x + b * 2 ^ s, rest)
    else
      readUvarintAux rest (i + 1) (x + b % 128 * 2 ^ s) (s + 7)

def readUvarint (stream : List Nat) : Except GoErr (Nat × List Nat) :=
  readUvarintAux stream 0 0 0

/-- The un-zigzag step of `binary.ReadVarint`:
`x := int64(ux >> 1); if ux&1 != 0 { x = ^x }`. -/
def unzigzag (u : Nat) : Int :=
  if u % 2 = 1 then -(((u / 2 : Nat) : Int) + 1) else ((u / 2 : Nat) : Int)

/-- `readVarint` (remotesync.go): `binary.ReadVarint(byteReader{r: r})`. -/
def readVarint (stream : List Nat) : Except GoErr (Int × List Nat) :=
  match readUvarint stream with
  | .error e => .error e
  | .ok (u, rest) => .ok (unzigzag u, rest)

/-- `writeVarint` (remotesync.go). -/
def writeVarint (x : Int) : List Nat := putVarint x

/-- LEB128 round trip, generalized over the loop state. -/
theorem readUvarintAux_put (fuel : Nat) : ∀ i x s v rest,
    fuel + i = 10 → v < 2 ^ (7 * (9 - i)) → i ≤ 9 →
    readUvarintAux (putUvarintAux fuel v ++ rest) i x s = .ok (x + v * 2 ^ s, rest) := by
  induction fuel with
  | zero =>
    intro i x s v rest hfi hv hi
    omega
  | succ fuel ih =>
    intro i x s v rest hfi hv hi
    rw [putUvarintAux]
    by_cases hsmall : v < 128
    · simp only [if_pos hsmall, List.cons_append, List.nil_append]
      rw [readUvarintAux]
      rw [if_neg (by omega), if_pos hsmall]
      have hnotov : ¬ (i = 9 ∧ 1 < v) := by
        rintro ⟨h9, hv1⟩
        subst h9
        have : (7 : Nat) * (9 - 9) = 0 := by norm_num
        rw [this, pow_zero] at hv
        omega
      rw [if_neg hnotov]
    · simp only [if_neg hsmall, List.cons_append]
      rw [readUvarintAux]
      rw [if_neg (by omega), if_neg (by omega : ¬ v % 128 + 128 < 128)]
      have hi8 : i ≤ 8 := by
        by_contra hgt
        have hi9 : i = 9 := by omega
        subst hi9
        have : (7 : Nat) * (9 - 9) = 0 := by norm_num
        rw [this, pow_zero] at hv
        omega
      have hmod : (v % 128 + 128) % 128 = v % 128 := by omega
      rw [hmod]
      have hexp : 2 ^ (7 * (9 - i)) = 2 ^ (7 * (9 - (i + 1))) * 128 := by
        have h1 : 7 * (9 - i) = 7 * (9 - (i + 1)) + 7 := by omega
        rw [h1, pow_add]
        norm_num
      have hdiv : v / 128 < 2 ^ (7 * (9 - (i + 1))) := by
        rw [Nat.div_lt_iff_lt_mul (by norm_num : (0:Nat) < 128)]
        rw [← hexp]
        exact hv
      rw [ih (i + 1) (x + v % 128 * 2 ^ s) (s + 7) (v / 128) rest (by omega) hdiv (by omega)]
      have hval : x + v % 128 * 2 ^ s + v / 128 * 2 ^ (s + 7) = x + v * 2 ^ s := by
        have h128 : v % 128 + 128 * (v / 128) = v := Nat.mod_add_div v 128
        have h2 : (2 : Nat) ^ (s + 7) = 2 ^ s * 128 := by
          rw [pow_add]
          norm_num
        rw [h2]
        have h3 : v % 128 * 2 ^ s + v / 128 * (2 ^ s * 128) =
            (v % 128 + 128 * (v / 128)) * 2 ^ s := by ring
        rw [h128] at h3
        omega
      rw [hval]

theorem readUvarint_put {v : Nat} (hv : v < 2 ^ 63) (rest : List Nat) :
    readUvarint (putUvarint v ++ rest) = .ok (v, rest) := by
  unfold readUvarint putUvarint
  rw [readUvarintAux_put 10 0 0 0 v rest (by omega) (by norm_num; omega) (by omega)]
  simp

theorem readVarint_put {n : Nat} (hn : n < 2 ^ 62) (rest : List Nat) :
    readVarint (putVarint (n : Int) ++ rest) = .ok ((n : Int), rest) := by
  unfold readVarint putVarint
  have hz : zigzag (n : Int) = 2 * n := by
    unfold zigzag
    rw [if_neg (by omega)]
    omega
  rw [hz, readUvarint_put (by omega) rest]
  have hu : unzigzag (2 * n) = (n : Int) := by
    unfold unzigzag
    rw [if_neg (by omega)]
    omega
  show Except.ok (unzigzag (2 * n), rest) = Except.ok ((n : Int), rest)
  rw [hu]

/-- Modelled from the spec: `adler32.MAX_CHUNK`, the hard chunk-size ceiling.
The `chunking/adler32` package is not under `src/`; §4.1 of the spec fixes the
cap at 128 KiB. -/
def MAX_CHUNK : Int := 131072

/-- `readChunkLength` (remotesync.go lines 59-67): read a varint and reject it
unless `0 ≤ l ≤ MAX_CHUNK` (the code's test is `l < 0 || l > adler32.MAX_CHUNK`). -/
def readChunkLength (stream : List Nat) : Except GoErr (Int × List Nat) :=
  match readVarint stream with
  | .error e => .error e
  | .ok (l, rest) =>
    if l < 0 ∨ MAX_CHUNK < l then .error (.invalidChunkLength l)
    else .ok (l, rest)

/-! ## The bit writer (remotesync.go lines 227-256)

`bitWriter` packs bits MSB-first into bytes; `Flush` pads the trailing byte
with zero bits.  `newBitWriter` (used by receive.go) constructs the same type.
The Go `byte` arithmetic `buf << 1 | bit` is `(buf * 2 + bit) % 256`. -/

structure BitW where
  buf : Nat
  n : Nat
  out : List Nat
  deriving Repr

/-- `bitWriter.WriteBit`. -/
def writeBit (w : BitW) (b : Bool) : BitW :=
  let buf := (w.buf * 2 + (if b then 1 else 0)) % 256
  let n := w.n + 1
  if n = 8 then ⟨buf, 0, w.out ++ [buf]⟩ else ⟨buf, n, w.out⟩

/-- `bitWriter.Flush`: write zero bits until the bit counter is 0.  The Go
loop terminates within 8 iterations from any reachable state (`n` is reset to
0 as soon as it reaches 8), so fuel 8 is exact. -/
def flushAux : Nat → BitW → BitW
  | 0, w => w
  | fuel + 1, w => if w.n = 0 then w else flushAux fuel (writeBit w false)

def flushBits (w : BitW) : BitW := flushAux 8 w

/-- The bytes produced by a fresh `bitWriter` fed `bits` and then flushed. -/
def bitWriterRun (bits : List Bool) : List Nat :=
  (flushBits (bits.foldl writeBit ⟨0, 0, []⟩)).out

/-- The numeric value of a bit string, MSB first. -/
def byteOfBits (bs : List Bool) : Nat :=
  bs.foldl (fun acc b => acc * 2 + (if b then 1 else 0)) 0

/-- Reference description of the wishlist byte format: bits grouped into
bytes of 8, MSB first, the final partial group padded with zero bits. -/
def packBits : List Bool → List Nat
  | [] => []
  | b0 :: b1 :: b2 :: b3 :: b4 :: b5 :: b6 :: b7 :: rest =>
    byteOfBits [b0, b1, b2, b3, b4, b5, b6, b7] :: packBits rest
  | bs => [byteOfBits (bs ++ List.replicate (8 - bs.length) false)]

theorem mod_mul_add256 (X Y Z : Nat) :
    (X % 256 * Y + Z) % 256 = (X * Y + Z) % 256 := by
  conv_lhs => rw [Nat.add_mod, Nat.mod_mul_mod]
  rw [← Nat.add_mod]

theorem writeBit_eq (buf n : Nat) (out : List Nat) (b : Bool) :
    writeBit ⟨buf, n, out⟩ b = if n + 1 = 8
      then ⟨(buf * 2 + (if b then 1 else 0)) % 256, 0,
        out ++ [(buf * 2 + (if b then 1 else 0)) % 256]⟩
      else ⟨(buf * 2 + (if b then 1 else 0)) % 256, n + 1, out⟩ := rfl

theorem flushAux_succ (fuel buf n : Nat) (out : List Nat) :
    flushAux (fuel + 1) ⟨buf, n, out⟩ =
      if n = 0 then ⟨buf, n, out⟩ else flushAux fuel (writeBit ⟨buf, n, out⟩ false) := rfl

theorem byteOfBits_foldl (bs : List Bool) : ∀ acc : Nat,
    bs.foldl (fun acc b => acc * 2 + (if b then 1 else 0)) acc =
      acc * 2 ^ bs.length + byteOfBits bs := by
  induction bs with
  | nil => intro acc; simp [byteOfBits]
  | cons b bs ih =>
    intro acc
    rw [List.foldl_cons, ih]
    have hrhs : byteOfBits (b :: bs) =
        (if b then 1 else 0) * 2 ^ bs.length + byteOfBits bs := by
      unfold byteOfBits
      rw [List.foldl_cons, ih]
      have h0 : ((0 : Nat) * 2 + (if b then 1 else 0)) = (if b then 1 else 0) := by
        omega
      rw [h0]
      rfl
    rw [hrhs, List.length_cons, pow_succ]
    ring

theorem byteOfBits_cons (b : Bool) (bs : List Bool) :
    byteOfBits (b :: bs) = (if b then 1 else 0) * 2 ^ bs.length + byteOfBits bs := by
  unfold byteOfBits
  rw [List.foldl_cons, byteOfBits_foldl]
  have h0 : ((0 : Nat) * 2 + (if b then 1 else 0)) = (if b then 1 else 0) := by
    omega
  rw [h0]
  rfl

theorem byteOfBits_lt (bs : List Bool) : byteOfBits bs < 2 ^ bs.length := by
  induction bs with
  | nil => simp [byteOfBits]
  | cons b bs ih =>
    rw [byteOfBits_cons, List.length_cons, pow_succ]
    have h3 : (if b then 1 else 0 : Nat) * 2 ^ bs.length ≤ 2 ^ bs.length := by
      rcases b <;> simp
    omega

theorem byteOfBits_append (as bs : List Bool) :
    byteOfBits (as ++ bs) = byteOfBits as * 2 ^ bs.length + byteOfBits bs := by
  rw [byteOfBits, List.foldl_append, byteOfBits_foldl]
  rfl

theorem byteOfBits_replicate_false (m : Nat) :
    byteOfBits (List.replicate m false) = 0 := by
  induction m with
  | zero => rfl
  | succ m ih =>
    rw [List.replicate_succ, byteOfBits_cons, ih]
    simp

/-- Folding up to 8 bits into a bit writer whose counter is below 8. -/
theorem foldl_writeBit_split (bs : List Bool) : ∀ (buf n : Nat) (out : List Nat),
    n + bs.length ≤ 8 → n < 8 → buf < 256 →
    bs.foldl writeBit ⟨buf, n, out⟩ =
      if n + bs.length = 8
      then ⟨(buf * 2 ^ bs.length + byteOfBits bs) % 256, 0,
        out ++ [(buf * 2 ^ bs.length + byteOfBits bs) % 256]⟩
      else ⟨(buf * 2 ^ bs.length + byteOfBits bs) % 256, n + bs.length, out⟩ := by
  induction bs with
  | nil =>
    intro buf n out h1 h2 h3
    simp only [List.length_nil, List.foldl_nil]
    rw [if_neg (by omega)]
    simp [byteOfBits, Nat.mod_eq_of_lt h3]
  | cons b bs ih =>
    intro buf n out h1 h2 h3
    rw [List.length_cons] at h1
    rw [List.foldl_cons, writeBit_eq]
    by_cases h8 : n + 1 = 8
    · have hbs : bs = [] := by
        have : bs.length = 0 := by omega
        exact List.eq_nil_of_length_eq_zero this
      subst hbs
      rw [if_pos h8, List.foldl_nil]
      rw [if_pos (show n + [b].length = 8 by simpa using h8)]
      have hb1 : byteOfBits [b] = (if b then 1 else 0) := by
        rw [byteOfBits_cons]
        simp [byteOfBits]
      simp [hb1]
    · rw [if_neg h8]
      rw [ih ((buf * 2 + (if b then 1 else 0)) % 256) (n + 1) out
        (by omega) (by omega) (Nat.mod_lt _ (by norm_num))]
      have hmod : ((buf * 2 + (if b then 1 else 0)) % 256 * 2 ^ bs.length +
          byteOfBits bs) % 256 =
          (buf * 2 ^ (bs.length + 1) + byteOfBits (b :: bs)) % 256 := by
        rw [mod_mul_add256, byteOfBits_cons, pow_succ]
        ring_nf
      rw [List.length_cons]
      by_cases hfin : n + 1 + bs.length = 8
      · rw [if_pos hfin, if_pos (show n + (bs.length + 1) = 8 by omega)]
        rw [hmod]
      · rw [if_neg hfin, if_neg (show ¬ n + (bs.length + 1) = 8 by omega)]
        rw [hmod]
        have he : n + 1 + bs.length = n + (bs.length + 1) := by omega
        rw [he]

/-- Flushing a writer with a nonzero bit counter pads the last byte with zero
bits and emits it. -/
theorem flushAux_spec : ∀ m buf n : Nat, ∀ out : List Nat,
    n + m = 8 → 0 < m → m ≤ 7 → buf < 256 → ∀ fuel, m ≤ fuel →
    flushAux fuel ⟨buf, n, out⟩ =
      ⟨(buf * 2 ^ m) % 256, 0, out ++ [(buf * 2 ^ m) % 256]⟩ := by
  intro m
  induction m with
  | zero => omega
  | succ m ih =>
    intro buf n out hm hpos hle hbuf fuel hfuel
    rcases fuel with _ | fuel
    · omega
    rw [flushAux_succ]
    rw [if_neg (show ¬ n = 0 by omega)]
    rw [writeBit_eq]
    rcases Nat.eq_zero_or_pos m with hm0 | hmpos
    · subst hm0
      -- last bit: the byte is emitted and the recursion stops at n = 0
      rw [if_pos (show n + 1 = 8 by omega)]
      have hval : (buf * 2 + (if false then 1 else 0)) % 256 = buf * 2 ^ 1 % 256 := by
        simp [pow_one]
      rcases fuel with _ | fuel
      · rw [flushAux, hval]
      · rw [flushAux_succ, if_pos rfl, hval]
    · rw [if_neg (show ¬ n + 1 = 8 by omega)]
      rw [ih ((buf * 2 + (if false then 1 else 0)) % 256) (n + 1) out
        (by omega) hmpos (by omega) (Nat.mod_lt _ (by norm_num)) fuel (by omega)]
      have hmod : ((buf * 2 + (if false then 1 else 0)) % 256 * 2 ^ m) % 256 =
          (buf * 2 ^ (m + 1)) % 256 := by
        have h1 := mod_mul_add256 (buf * 2 + (if false then 1 else 0)) (2 ^ m) 0
        simp only [Nat.add_zero] at h1
        rw [h1, pow_succ]
        simp only [if_neg (by simp : ¬ false = true)]
        ring_nf
      rw [hmod]

theorem packBits_of_ge8 : ∀ bits : List Bool, 8 ≤ bits.length →
    packBits bits = byteOfBits (bits.take 8) :: packBits (bits.drop 8)
  | [], h => absurd h (by simp)
  | [_], h => absurd h (by simp)
  | [_, _], h => absurd h (by simp)
  | [_, _, _], h => absurd h (by simp)
  | [_, _, _, _], h => absurd h (by simp)
  | [_, _, _, _, _], h => absurd h (by simp)
  | [_, _, _, _, _, _], h => absurd h (by simp)
  | [_, _, _, _, _, _, _], h => absurd h (by simp)
  | _ :: _ :: _ :: _ :: _ :: _ :: _ :: _ :: _, _ => rfl

theorem packBits_small : ∀ bits : List Bool, bits ≠ [] → bits.length < 8 →
    packBits bits = [byteOfBits (bits ++ List.replicate (8 - bits.length) false)]
  | [], h, _ => absurd rfl h
  | [_], _, _ => rfl
  | [_, _], _, _ => rfl
  | [_, _, _], _, _ => rfl
  | [_, _, _, _], _, _ => rfl
  | [_, _, _, _, _], _, _ => rfl
  | [_, _, _, _, _, _], _, _ => rfl
  | [_, _, _, _, _, _, _], _, _ => rfl
  | _ :: _ :: _ :: _ :: _ :: _ :: _ :: _ :: _, _, h2 => absurd h2 (by simp)

/-- The bit writer implements the reference byte format. -/
theorem bitWriter_foldl_flush : ∀ N bits (buf0 : Nat) (out0 : List Nat),
    List.length bits ≤ N → buf0 < 256 →
    (flushBits (bits.foldl writeBit ⟨buf0, 0, out0⟩)).out = out0 ++ packBits bits := by
  intro N
  induction N with
  | zero =>
    intro bits buf0 out0 hlen hbuf
    have hnil : bits = [] := List.eq_nil_of_length_eq_zero (by omega)
    subst hnil
    simp [flushBits, flushAux, packBits]
  | succ N ihN =>
    intro bits buf0 out0 hlen hbuf
    rcases Nat.lt_or_ge bits.length 8 with hlt | hge
    · rcases Nat.eq_zero_or_pos bits.length with h0 | hpos
      · have hnil : bits = [] := List.eq_nil_of_length_eq_zero h0
        subst hnil
        simp [flushBits, flushAux, packBits]
      · have hne : bits ≠ [] := by
          intro h
          rw [h] at hpos
          simp at hpos
        rw [foldl_writeBit_split bits buf0 0 out0 (by omega) (by norm_num) hbuf]
        rw [if_neg (show ¬ 0 + bits.length = 8 by omega)]
        unfold flushBits
        rw [flushAux_spec (8 - (0 + bits.length))
          ((buf0 * 2 ^ bits.length + byteOfBits bits) % 256) (0 + bits.length) out0
          (by omega) (by omega) (by omega) (Nat.mod_lt _ (by norm_num)) 8 (by omega)]
        rw [packBits_small bits hne hlt]
        have hval : ((buf0 * 2 ^ bits.length + byteOfBits bits) % 256 *
            2 ^ (8 - (0 + bits.length))) % 256 =
            byteOfBits (bits ++ List.replicate (8 - bits.length) false) := by
          have h1 := mod_mul_add256 (buf0 * 2 ^ bits.length + byteOfBits bits)
            (2 ^ (8 - (0 + bits.length))) 0
          simp only [Nat.add_zero] at h1
          rw [h1]
          have h3 : (2 : Nat) ^ bits.length * 2 ^ (8 - bits.length) = 2 ^ 8 := by
            rw [← pow_add]
            congr 1
            omega
          have h2 : (buf0 * 2 ^ bits.length + byteOfBits bits) *
              2 ^ (8 - (0 + bits.length)) =
              2 ^ 8 * buf0 + byteOfBits bits * 2 ^ (8 - bits.length) := by
            simp only [Nat.zero_add]
            calc (buf0 * 2 ^ bits.length + byteOfBits bits) * 2 ^ (8 - bits.length)
                = buf0 * (2 ^ bits.length * 2 ^ (8 - bits.length)) +
                  byteOfBits bits * 2 ^ (8 - bits.length) := by ring
              _ = 2 ^ 8 * buf0 + byteOfBits bits * 2 ^ (8 - bits.length) := by
                  rw [h3]; ring
          have h28 : (2 : Nat) ^ 8 = 256 := by norm_num
          rw [h2, h28, Nat.mul_add_mod]
          rw [byteOfBits_append, byteOfBits_replicate_false, List.length_replicate]
          have h6 := byteOfBits_lt bits
          have h7 : byteOfBits bits * 2 ^ (8 - bits.length) <
              2 ^ bits.length * 2 ^ (8 - bits.length) :=
            mul_lt_mul_of_pos_right h6 (pow_pos (by norm_num) _)
          rw [h3] at h7
          rw [Nat.add_zero]
          exact Nat.mod_eq_of_lt (by omega)
        show out0 ++ [(buf0 * 2 ^ bits.length + byteOfBits bits) % 256 *
            2 ^ (8 - (0 + bits.length)) % 256] =
          out0 ++ [byteOfBits (bits ++ List.replicate (8 - bits.length) false)]
        rw [hval]
    · -- at least one full byte: split off the first 8 bits
      have hsplit : bits = bits.take 8 ++ bits.drop 8 := (List.take_append_drop 8 bits).symm
      have htlen : (bits.take 8).length = 8 := by
        rw [List.length_take]
        exact Nat.min_eq_left hge
      conv_lhs => rw [hsplit]
      rw [List.foldl_append]
      rw [foldl_writeBit_split (bits.take 8) buf0 0 out0 (by omega)
        (by norm_num) hbuf]
      rw [if_pos (show 0 + (bits.take 8).length = 8 by omega)]
      have hbyte : (buf0 * 2 ^ (bits.take 8).length + byteOfBits (bits.take 8)) % 256 =
          byteOfBits (bits.take 8) := by
        rw [htlen]
        have h1 : buf0 * 2 ^ 8 + byteOfBits (bits.take 8) =
            256 * buf0 + byteOfBits (bits.take 8) := by norm_num; ring
        rw [h1, Nat.mul_add_mod]
        exact Nat.mod_eq_of_lt (by
          have := byteOfBits_lt (bits.take 8)
          rw [htlen] at this
          omega)
      rw [hbyte]
      rw [ihN (bits.drop 8) (byteOfBits (bits.take 8)) (out0 ++ [byteOfBits (bits.take 8)])
        (by rw [List.length_drop]; omega)
        (by have := byteOfBits_lt (bits.take 8); rw [htlen] at this; omega)]
      rw [packBits_of_ge8 bits hge]
      simp

theorem bitWriterRun_eq_packBits (bits : List Bool) :
    bitWriterRun bits = packBits bits := by
  unfold bitWriterRun
  rw [bitWriter_foldl_flush bits.length bits 0 [] (le_refl _) (by norm_num)]
  simp

theorem packBits_length : ∀ N bits, List.length bits ≤ N →
    (packBits bits).length = (bits.length + 7) / 8 := by
  intro N
  induction N with
  | zero =>
    intro bits hlen
    have hnil : bits = [] := List.eq_nil_of_length_eq_zero (by omega)
    subst hnil
    rfl
  | succ N ihN =>
    intro bits hlen
    rcases Nat.lt_or_ge bits.length 8 with hlt | hge
    · rcases Nat.eq_zero_or_pos bits.length with h0 | hpos
      · have hnil : bits = [] := List.eq_nil_of_length_eq_zero h0
        subst hnil
        rfl
      · have hne : bits ≠ [] := by
          intro h
          rw [h] at hpos
          simp at hpos
        rw [packBits_small bits hne hlt]
        simp only [List.length_singleton]
        omega
    · rw [packBits_of_ge8 bits hge]
      rw [List.length_cons, ihN (bits.drop 8) (by rw [List.length_drop]; omega)]
      rw [List.length_drop]
      omega

/-! ## Chunks and the chunk store

Modelled from the spec: the `cafs` store interfaces (`FileStorage`, `File`,
`Temporary`, package `ram`) are not under `src/`.  §4.3: the store is
content-addressed by a key function (SHA-256 in the implementation, abstracted
as `keyFn` here); `Get` returns the stored chunk for a key or reports absence;
inserting a chunk whose key is present only bumps a reference count.
Reference counts, capacity and eviction do not affect the values exchanged by
a sync session (every chunk used by the session is pinned by a live handle),
so the store is modelled as the list of stored chunk byte strings. -/

abbrev Chunk := List Nat

abbrev Store := List Chunk

variable {κ : Type} [DecidableEq κ]

/-- Modelled from the spec: `FileStorage.Get` — the stored chunk with the
given key, if any. -/
def storeGet (keyFn : Chunk → κ) (S : Store) (key : κ) : Option Chunk :=
  S.find? (fun c => decide (keyFn c = key))

/-- Modelled from the spec: inserting a received chunk (via a `Temporary`'s
`Close`).  Content-wise a plain insertion; de-duplication only affects
reference counts, which are not modelled. -/
def storePut (c : Chunk) (S : Store) : Store := c :: S

/-- `ChunkInfo` of the remotesync package (declared in the part of the
package that is not under `src/`, used by receive.go): a chunk key plus its
size.  Sizes produced by `SyncInfo.addChunk` are in `[0, MaxChunkSize]`. -/
structure ChunkInfo (κ : Type) where
  key : κ
  size : Nat
  deriving DecidableEq, Repr

/-- `memo` (receive.go lines 35-39).  The `ci` field is `Option`al: `none`
stands for the `emptyChunkInfo` sentinel that `WriteWishList`'s shuffler
substitutes for drained slots — the real code gives the sentinel a value
distinct from the zero `ChunkInfo` so that it can still recognise the zero
`memo` produced by reading the closed memo channel. -/
structure MemoR (κ : Type) where
  ci : Option (ChunkInfo κ)
  file : Option Chunk
  requested : Bool
  deriving DecidableEq, Repr

/-! ## The receiver's wishlist task (`Builder.WriteWishList`, receive.go 91-161) -/

/-- The key consumed by `WriteWishList`'s `consumeFunc`: the shuffler's
`apply` substitutes the `emptyChunkInfo` sentinel (modelled `none`) for `nil`
emissions, and the sentinel's key is `emptyKey` (the zero `SKey`). -/
def keyOf (emptyKey : κ) : Option (ChunkInfo κ) → κ
  | none => emptyKey
  | some ci => ci.key

/-- The observable state of `WriteWishList`: the `requested` key set, the
memos sent over the memo channel, and the bits fed to the bit writer. -/
structure WLState (κ : Type) where
  req : List κ
  memos : List (MemoR κ)
  bits : List Bool

/-- One invocation of `WriteWishList`'s `consumeFunc` (receive.go 106-145):
a key equal to `emptyKey` or already requested is not requested again; a key
found in the store is pinned in the memo's `file` and marked requested in the
set; an absent key is requested.  The memo is enqueued and one bit written. -/
def wlStep (keyFn : Chunk → κ) (emptyKey : κ) (S : Store)
    (st : WLState κ) (v : Option (ChunkInfo κ)) : WLState κ :=
  let key := keyOf emptyKey v
  if key = emptyKey ∨ key ∈ st.req then
    ⟨st.req, st.memos ++ [⟨v, none, false⟩], st.bits ++ [false]⟩
  else
    match storeGet keyFn S key with
    | none => ⟨key :: st.req, st.memos ++ [⟨v, none, true⟩], st.bits ++ [true]⟩
    | some file => ⟨key :: st.req, st.memos ++ [⟨v, some file, false⟩], st.bits ++ [false]⟩

/-- `Builder.WriteWishList` (receive.go 91-161): push the manifest's chunk
infos through a forward stream shuffler (`shuffle.NewStreamShuffler` with the
session permutation and the `emptyChunkInfo` placeholder) and run the
consumer over every emission, including the `k-1` placeholder emissions of
`End()`.  The store is only read (`storage.Get`) during this task. -/
def WriteWishList (keyFn : Chunk → κ) (emptyKey : κ) (p : Permutation)
    (infos : List (ChunkInfo κ)) (S : Store) : WLState κ :=
  (shufOuts p infos).foldl (wlStep keyFn emptyKey S) ⟨[], [], []⟩

/-- The wishlist bytes: the bits packed MSB-first by the `bitWriter` and
flushed (receive.go line 160). -/
def wishListBytes (keyFn : Chunk → κ) (emptyKey : κ) (p : Permutation)
    (infos : List (ChunkInfo κ)) (S : Store) : List Nat :=
  bitWriterRun (WriteWishList keyFn emptyKey p infos S).bits

/-- The default memo (only used as a `getD` default). -/
def memoDflt : MemoR κ := ⟨none, none, false⟩

/-- Shape of one `consumeFunc` invocation: exactly one memo and one bit are
appended; the bit is `1` iff the key is fresh (not the zero key, not yet
requested) and absent from the store; the requested set gains exactly the
fresh non-zero keys. -/
theorem wlStep_spec (keyFn : Chunk → κ) (emptyKey : κ) (S : Store)
    (st : WLState κ) (v : Option (ChunkInfo κ)) :
    ∃ m : MemoR κ, ∃ b : Bool,
      (wlStep keyFn emptyKey S st v).memos = st.memos ++ [m] ∧
      (wlStep keyFn emptyKey S st v).bits = st.bits ++ [b] ∧
      m.ci = v ∧ m.requested = b ∧
      (b = true ↔ ¬ keyOf emptyKey v = emptyKey ∧ ¬ keyOf emptyKey v ∈ st.req ∧
        storeGet keyFn S (keyOf emptyKey v) = none) ∧
      (∀ key, key ∈ (wlStep keyFn emptyKey S st v).req ↔
        key ∈ st.req ∨ (key = keyOf emptyKey v ∧ ¬ key = emptyKey)) := by
  unfold wlStep
  by_cases hc : keyOf emptyKey v = emptyKey ∨ keyOf emptyKey v ∈ st.req
  · rw [if_pos hc]
    refine ⟨⟨v, none, false⟩, false, rfl, rfl, rfl, rfl, ?_, ?_⟩
    · simp only [Bool.false_eq_true, false_iff]
      tauto
    · intro key
      simp only []
      constructor
      · intro h
        exact Or.inl h
      · rintro (h | ⟨h1, h2⟩)
        · exact h
        · subst h1
          tauto
  · rw [if_neg hc]
    push_neg at hc
    obtain ⟨hne, hnr⟩ := hc
    cases hget : storeGet keyFn S (keyOf emptyKey v) with
    | none =>
      refine ⟨⟨v, none, true⟩, true, rfl, rfl, rfl, rfl, ?_, ?_⟩
      · simp only [true_iff]
        exact ⟨hne, hnr, by trivial⟩
      · intro key
        simp only [List.mem_cons]
        constructor
        · rintro (h | h)
          · subst h
            exact Or.inr ⟨rfl, hne⟩
          · exact Or.inl h
        · rintro (h | ⟨h1, h2⟩)
          · exact Or.inr h
          · exact Or.inl h1
    | some file =>
      refine ⟨⟨v, some file, false⟩, false, rfl, rfl, rfl, rfl, ?_, ?_⟩
      · simp only [Bool.false_eq_true, false_iff]
        intro ⟨h1, h2, h3⟩
        cases h3
      · intro key
        simp only [List.mem_cons]
        constructor
        · rintro (h | h)
          · subst h
            exact Or.inr ⟨rfl, hne⟩
          · exact Or.inl h
        · rintro (h | ⟨h1, h2⟩)
          · exact Or.inr h
          · exact Or.inl h1

/-- Characterization of the whole wishlist fold over a shuffled output
sequence: memo/bit counts, the requested set, and the wishlist law per
position. -/
theorem wl_fold_char (keyFn : Chunk → κ) (emptyKey : κ) (S : Store)
    (outs : List (Option (ChunkInfo κ))) :
    ((outs.foldl (wlStep keyFn emptyKey S) ⟨[], [], []⟩).memos.length = outs.length) ∧
    ((outs.foldl (wlStep keyFn emptyKey S) ⟨[], [], []⟩).bits.length = outs.length) ∧
    (∀ key, key ∈ (outs.foldl (wlStep keyFn emptyKey S) ⟨[], [], []⟩).req ↔
      ¬ key = emptyKey ∧ ∃ j, j < outs.length ∧ ∃ cj : ChunkInfo κ,
        outs.getD j none = some cj ∧ cj.key = key) ∧
    (∀ i, i < outs.length →
      ((outs.foldl (wlStep keyFn emptyKey S) ⟨[], [], []⟩).memos.getD i memoDflt).ci
        = outs.getD i none ∧
      ((outs.foldl (wlStep keyFn emptyKey S) ⟨[], [], []⟩).memos.getD i memoDflt).requested
        = (outs.foldl (wlStep keyFn emptyKey S) ⟨[], [], []⟩).bits.getD i false ∧
      ((outs.foldl (wlStep keyFn emptyKey S) ⟨[], [], []⟩).bits.getD i false = true ↔
        ∃ ci : ChunkInfo κ, outs.getD i none = some ci ∧ ¬ ci.key = emptyKey ∧
          storeGet keyFn S ci.key = none ∧
          ∀ j, j < i → ∀ cj : ChunkInfo κ, outs.getD j none = some cj →
            ¬ cj.key = ci.key)) := by
  induction outs using List.reverseRecOn with
  | nil => simp
  | append_singleton os v ih =>
    obtain ⟨ihm, ihb, ihr, ihp⟩ := ih
    rw [List.foldl_append, List.foldl_cons, List.foldl_nil]
    obtain ⟨m, b, hm, hb, hmci, hmrq, hbit, hreq⟩ :=
      wlStep_spec keyFn emptyKey S (os.foldl (wlStep keyFn emptyKey S) ⟨[], [], []⟩) v
    have hlen : (os ++ [v]).length = os.length + 1 := by simp
    have houtsat : ∀ j, j < os.length → (os ++ [v]).getD j none = os.getD j none := by
      intro j hj
      exact List.getD_append _ _ none j hj
    have houtlast : (os ++ [v]).getD os.length none = v := by
      rw [List.getD_append_right _ _ none os.length (le_refl _), Nat.sub_self]
      rfl
    refine ⟨by rw [hm]; simp [ihm], by rw [hb]; simp [ihb], ?_, ?_⟩
    · intro key
      rw [hreq key, ihr key]
      constructor
      · rintro (⟨h1, j, hj, cj, hcj, hk⟩ | ⟨h1, h2⟩)
        · exact ⟨h1, j, by omega, cj, by rw [houtsat j hj]; exact hcj, hk⟩
        · subst h1
          have hvs : ∃ ci : ChunkInfo κ, v = some ci ∧ ci.key = keyOf emptyKey v := by
            cases v with
            | none => exact absurd rfl h2
            | some ci => exact ⟨ci, rfl, rfl⟩
          obtain ⟨ci, hvse, hcik⟩ := hvs
          refine ⟨h2, os.length, ?_, ci, ?_, hcik⟩
          · rw [hlen]
            omega
          · rw [houtlast]
            exact hvse
      · rintro ⟨h1, j, hj, cj, hcj, hk⟩
        rcases Nat.lt_or_ge j os.length with hjlt | hjge
        · exact Or.inl ⟨h1, j, hjlt, cj, by rw [← houtsat j hjlt]; exact hcj, hk⟩
        · have hjeq : j = os.length := by rw [hlen] at hj; omega
          subst hjeq
          rw [houtlast] at hcj
          right
          refine ⟨?_, h1⟩
          rw [hcj]
          rw [← hk]
          rfl
    · intro i hi
      rcases Nat.lt_or_ge i os.length with hilt | hige
      · have he1 : ((os.foldl (wlStep keyFn emptyKey S) ⟨[], [], []⟩).memos ++
            [m]).getD i memoDflt =
            (os.foldl (wlStep keyFn emptyKey S) ⟨[], [], []⟩).memos.getD i memoDflt :=
          List.getD_append _ _ memoDflt i (by rw [ihm]; exact hilt)
        have he2 : ((os.foldl (wlStep keyFn emptyKey S) ⟨[], [], []⟩).bits ++
            [b]).getD i false =
            (os.foldl (wlStep keyFn emptyKey S) ⟨[], [], []⟩).bits.getD i false :=
          List.getD_append _ _ false i (by rw [ihb]; exact hilt)
        obtain ⟨ih1, ih2, ih3⟩ := ihp i hilt
        rw [hm, hb, he1, he2, houtsat i hilt]
        refine ⟨ih1, ih2, ?_⟩
        rw [ih3]
        constructor
        · rintro ⟨ci, hci, h1, h2, h3⟩
          exact ⟨ci, hci, h1, h2, fun j hj cj hcj =>
            h3 j hj cj (by rw [← houtsat j (by omega)]; exact hcj)⟩
        · rintro ⟨ci, hci, h1, h2, h3⟩
          exact ⟨ci, hci, h1, h2, fun j hj cj hcj =>
            h3 j hj cj (by rw [houtsat j (by omega)]; exact hcj)⟩
      · have hieq : i = os.length := by rw [hlen] at hi; omega
        subst hieq
        have he1 : ((os.foldl (wlStep keyFn emptyKey S) ⟨[], [], []⟩).memos ++
            [m]).getD os.length memoDflt = m := by
          rw [List.getD_append_right _ _ memoDflt os.length (by rw [ihm])]
          rw [ihm, Nat.sub_self]
          rfl
        have he2 : ((os.foldl (wlStep keyFn emptyKey S) ⟨[], [], []⟩).bits ++
            [b]).getD os.length false = b := by
          rw [List.getD_append_right _ _ false os.length (by rw [ihb])]
          rw [ihb, Nat.sub_self]
          rfl
        rw [hm, hb, he1, he2, houtlast]
        refine ⟨hmci, hmrq, ?_⟩
        rw [hbit]
        cases hv : v with
        | none =>
          constructor
          · rintro ⟨h1, _, _⟩
            exact absurd rfl h1
          · rintro ⟨ci, hci, _⟩
            cases hci
        | some ci =>
          have hko : keyOf emptyKey (some ci) = ci.key := rfl
          constructor
          · rintro ⟨h1, h2, h3⟩
            rw [hko] at h1 h2 h3
            refine ⟨ci, rfl, h1, h3, ?_⟩
            intro j hj cj hcj hk
            apply h2
            rw [ihr]
            refine ⟨by rw [← hk]; exact fun hc => h1 (hk ▸ hc), j, hj, cj, ?_, hk⟩
            rw [← hv] at hcj
            rw [houtsat j hj] at hcj
            exact hcj
          · rintro ⟨ci2, hci2, h1, h2, h3⟩
            cases hci2
            rw [hko]
            refine ⟨h1, ?_, h2⟩
            intro hmem
            rw [ihr] at hmem
            obtain ⟨_, j, hj, cj, hcj, hk⟩ := hmem
            exact h3 j hj cj (by rw [← hv, houtsat j hj]; exact hcj) hk

/-! ## The sender -/

/-- Modelled from the spec: the sender — `WriteChunkData` in the current
package (the claims also cite the legacy `WriteRequestedChunks`) — whose
modern implementation is not under `src/`; only its callers
(remotesync_test.go, httpsync) are.  Spec §4.5: iterate the file's chunks in
file order, feed them through a forward `StreamShuffler` under the session
permutation, and for every real emission whose wishlist bit is `1` write
`varint(size) || chunk bytes`; emissions whose bit is `0`, and placeholder
emissions, transmit nothing.  One wishlist bit is consumed per shuffler
emission (real or placeholder), which is the bit-per-emission wishlist
format that `Builder.WriteWishList` (receive.go, under `src/`) produces.
`chunkRecord` is the bytes one emission contributes to the stream. -/
def chunkRecord : Option Chunk × Bool → List Nat
  | (some c, true) => writeVarint (Int.ofNat c.length) ++ c
  | _ => []

/-- Modelled from the spec: the sender proper — see `chunkRecord` above. -/
def WriteRequestedChunks (p : Permutation) (cs : List Chunk)
    (bits : List Bool) : List Nat :=
  (((shufOuts p cs).zip bits).map chunkRecord).flatten

/-! ## The receiver's reconstruction task
(`Builder.ReconstructFileFromRequestedChunks`, receive.go 183-284) -/

/-- `readChunk` (remotesync.go 417-436) at the byte level: read a varint
length, reject it unless `0 ≤ l ≤ MAX_CHUNK`, then copy exactly `l` bytes
into a fresh temporary (`io.CopyN` reports `io.EOF` when the stream is
shorter).  Returns the chunk's bytes and the remaining stream; the caller
inserts the bytes into the store (the temporary's `Close`). -/
def readChunkB (stream : List Nat) : Except GoErr (Chunk × List Nat) :=
  match readVarint stream with
  | .error e => .error e
  | .ok (l, rest) =>
    if l < 0 ∨ MAX_CHUNK < l then .error (.invalidChunkLength l)
    else if rest.length < l.toNat then .error .eof
    else .ok (rest.take l.toNat, rest.drop l.toNat)

/-- One `Put` into the inverse stream shuffler of
`ReconstructFileFromRequestedChunks`, paired with the bytes appended to the
temporary so far.  The shuffler's elements are `Option Chunk` with `none`
standing for the `placeholder` value; the consumer appends a real chunk's
bytes to the temporary, `nil` and placeholder emissions are dropped
(`NewInverseStreamShuffler`'s `apply`). -/
def unshufPut (st : Shuffler (Option Chunk) × List Nat)
    (v : Option (Option Chunk)) : Shuffler (Option Chunk) × List Nat :=
  let pr := st.1.put v
  match pr.2 with
  | some (some c) => (pr.1, st.2 ++ c)
  | _ => (pr.1, st.2)

/-- `StreamShuffler.End` on the unshuffler: `k - 1` `Put(nil)` calls. -/
def unshufDrain : Nat → Shuffler (Option Chunk) × List Nat →
    Shuffler (Option Chunk) × List Nat
  | 0, st => st
  | m + 1, st => unshufDrain m (unshufPut st none)

/-- The iteration of `ReconstructFileFromRequestedChunks` (receive.go
210-273), one step per memo read from the memo channel, followed by the
closed-channel probe (`mem == zeroMemo`): a final `readChunk` must hit EOF
(`errDone`); a successful read is `unsolicited chunk data`; any other error
aborts.  On `errDone` the unshuffler is drained and the temporary closed.
The final `chunk, _ := b.storage.Get(&mem.ci.Key)` discards the error: on a
failed `Get` the `nil` file is fed to the unshuffler (`unshufPut st none`),
which later drops it. -/
def reconLoop (keyFn : Chunk → κ) :
    List (MemoR κ) → List Nat → Store → Shuffler (Option Chunk) × List Nat →
    Except GoErr (List Nat)
  | [], stream, _, st =>
    match readChunkB stream with
    | .error .eof => .ok (unshufDrain (st.1.perm.length - 1) st).2
    | .ok _ => .error .unsolicitedChunkData
    | .error e => .error e
  | mem :: rest, stream, S, st =>
    match mem.ci with
    | none => reconLoop keyFn rest stream S (unshufPut st (some none))
    | some ci =>
      if mem.requested then
        match readChunkB stream with
        | .error .eof => .error .unexpectedEOF
        | .error e => .error e
        | .ok (bytes, stream2) =>
          let S2 := storePut bytes S
          if keyFn bytes ≠ ci.key then .error .unexpectedChunk
          else if bytes.length ≠ ci.size then .error .unexpectedChunk
          else
            match storeGet keyFn S2 ci.key with
            | some c => reconLoop keyFn rest stream2 S2 (unshufPut st (some (some c)))
            | none => reconLoop keyFn rest stream2 S2 (unshufPut st none)
      else
        match storeGet keyFn S ci.key with
        | some c => reconLoop keyFn rest stream S (unshufPut st (some (some c)))
        | none => reconLoop keyFn rest stream S (unshufPut st none)

/-- `Builder.ReconstructFileFromRequestedChunks` (receive.go 183-284),
returning the reconstructed file's bytes. -/
def ReconstructFileFromRequestedChunks (keyFn : Chunk → κ) (p : Permutation)
    (memos : List (MemoR κ)) (stream : List Nat) (S : Store) :
    Except GoErr (List Nat) :=
  reconLoop keyFn memos stream S (NewShuffler (inverse p), [])

/-! ## Builder lifecycle (receive.go 41-87, 163-176) -/

/-- The mutex-guarded flags of `Builder` (receive.go 49-52). -/
structure BuilderState where
  disposed : Bool
  started : Bool
  deriving DecidableEq, Repr

/-- The outcome of `Builder.start`. -/
inductive StartResult where
  | ok (st : BuilderState)
  | errDisposed
  /-- Go `panic("WriteWishList called twice")` -/
  | panicTwice
  deriving DecidableEq, Repr

/-- `Builder.start` (receive.go 165-176), the first action of
`Builder.WriteWishList` (receive.go line 97): an already-disposed builder
reports `ErrDisposed`; a second start panics; otherwise `started` is set. -/
def builderStart (st : BuilderState) : StartResult :=
  if st.disposed then .errDisposed
  else if st.started then .panicTwice
  else .ok ⟨st.disposed, true⟩

/-! ## SKey JSON encoding (src/encoding.go) -/

/-- A 32-byte SHA-256 key (`cafs.SKey`), as a list of byte values. -/
abbrev SKey := List Nat

/-- Lowercase hex digit, as produced by Go `encoding/hex`. -/
def hexDigit (n : Nat) : Char :=
  if n < 10 then Char.ofNat (48 + n) else Char.ofNat (87 + n)

def hexEncode (bs : List Nat) : List Char :=
  (bs.map (fun b => [hexDigit (b / 16), hexDigit (b % 16)])).flatten

/-- `SKey.MarshalJSON` (encoding.go 27-34): a quoted lowercase hex string. -/
def SKeyMarshalJSON (k : SKey) : List Char :=
  '"' :: (hexEncode k ++ ['"'])

/-- The standard base64 alphabet (Go `base64.StdEncoding`). -/
def isBase64Char (c : Char) : Bool :=
  (65 ≤ c.toNat && c.toNat ≤ 90) || (97 ≤ c.toNat && c.toNat ≤ 122) ||
    (48 ≤ c.toNat && c.toNat ≤ 57) || c = '+' || c = '/'

/-- `SKey.UnmarshalJSON` (encoding.go 36-39): `t := []byte(k[:])` makes a
slice header over the key's bytes, but `json.Unmarshal(b, &t)` decodes the
JSON string as **base64** (the `encoding/json` treatment of `[]byte`) into a
freshly allocated slice which it assigns to the local `t` — the receiver `k`
is never written.  Modelled: parse the JSON string literal, require that its
content is acceptable to the std base64 decoder (characters of the base64
alphabet, length a multiple of 4 — an unpadded 64-character hex string
qualifies), and return the receiver unchanged on success. -/
def SKeyUnmarshalJSON (b : List Char) (k : SKey) : Except String SKey :=
  match b with
  | '"' :: rest =>
    if rest.getLast? = some '"' ∧ rest.dropLast.all isBase64Char ∧
        rest.dropLast.length % 4 = 0
    then .ok k
    else .error "json: cannot unmarshal"
  | _ => .error "json: not a string"

/-! ## Supporting lemmas about the unshuffler fold -/

theorem unshufDrain_eq_foldl : ∀ (m : Nat) (st : Shuffler (Option Chunk) × List Nat),
    unshufDrain m st =
      (List.replicate m (none : Option (Option Chunk))).foldl unshufPut st := by
  intro m
  induction m with
  | zero => intro st; rfl
  | succ m ih =>
    intro st
    rw [unshufDrain, List.replicate_succ, List.foldl_cons, ih]

theorem unshufFold_spec : ∀ (ws : List (Option (Option Chunk)))
    (st : Shuffler (Option Chunk) × List Nat),
    ws.foldl unshufPut st =
      ((st.1.run ws).1,
        st.2 ++ ((st.1.run ws).2.filterMap (fun o => o.bind id)).flatten) := by
  intro ws
  induction ws with
  | nil =>
    intro st
    simp [Shuffler.run]
  | cons v vs ih =>
    intro st
    rw [List.foldl_cons, ih]
    have hrun1 : (st.1.run (v :: vs)).1 = ((st.1.put v).1.run vs).1 := rfl
    have hrun2 : (st.1.run (v :: vs)).2 =
        (st.1.put v).2 :: ((st.1.put v).1.run vs).2 := rfl
    rcases hpr : (st.1.put v).2 with _ | co
    · have hup : unshufPut st v = ((st.1.put v).1, st.2) := by
        simp only [unshufPut]
        rw [hpr]
      rw [hup, hrun1, hrun2, hpr]
      simp
    · cases co with
      | none =>
        have hup : unshufPut st v = ((st.1.put v).1, st.2) := by
          simp only [unshufPut]
          rw [hpr]
        rw [hup, hrun1, hrun2, hpr]
        simp
      | some c =>
        have hup : unshufPut st v = ((st.1.put v).1, st.2 ++ c) := by
          simp only [unshufPut]
          rw [hpr]
        rw [hup, hrun1, hrun2, hpr]
        simp [List.filterMap_cons, List.append_assoc]

theorem run_replicate_none : ∀ (m : Nat) (s : Shuffler α),
    (∀ j, s.buffer j = none) →
    (s.run (List.replicate m none)).2 = List.replicate m none := by
  intro m
  induction m with
  | zero => intro s _; rfl
  | succ m ih =>
    intro s h
    rw [List.replicate_succ]
    show ((s.put none).2 :: ((s.put none).1.run (List.replicate m none)).2) = _
    have h2 : ∀ j, (s.put none).1.buffer j = none := by
      intro j
      show (if j = s.perm.getD s.idx 0 then none else s.buffer j) = none
      split
      · rfl
      · exact h j
    have h1 : (s.put none).2 = none := by
      show (if s.idx = s.perm.getD s.idx 0 then none else s.buffer s.idx) = none
      split
      · rfl
      · exact h s.idx
    rw [h1, ih _ h2]

theorem filterMap_bind_replicate_none (m : Nat) :
    (List.replicate m (none : Option (Option Chunk))).filterMap
      (fun o => o.bind id) = [] := by
  induction m with
  | zero => rfl
  | succ m ih => rw [List.replicate_succ, List.filterMap_cons_none rfl, ih]

theorem unshufDrain_none (m : Nat) (st : Shuffler (Option Chunk) × List Nat)
    (h : ∀ j, st.1.buffer j = none) : (unshufDrain m st).2 = st.2 := by
  rw [unshufDrain_eq_foldl, unshufFold_spec]
  show st.2 ++ ((st.1.run (List.replicate m none)).2.filterMap _).flatten = st.2
  rw [run_replicate_none m st.1 h, filterMap_bind_replicate_none]
  simp

theorem run_out_mem : ∀ (ws : List (Option α)) (s : Shuffler α),
    ∀ o ∈ (s.run ws).2, o ∈ ws ∨ ∃ j, s.buffer j = o := by
  intro ws
  induction ws with
  | nil =>
    intro s o ho
    simp [Shuffler.run] at ho
  | cons v vs ih =>
    intro s o ho
    have hcons : (s.run (v :: vs)).2 = (s.put v).2 :: ((s.put v).1.run vs).2 := rfl
    rw [hcons, List.mem_cons] at ho
    have hout : (s.put v).2 =
        if s.idx = s.perm.getD s.idx 0 then v else s.buffer s.idx := rfl
    have hbuf : ∀ j, (s.put v).1.buffer j =
        if j = s.perm.getD s.idx 0 then v else s.buffer j := fun _ => rfl
    rcases ho with ho | ho
    · rw [hout] at ho
      split at ho
      · exact Or.inl (ho ▸ List.mem_cons_self v vs)
      · exact Or.inr ⟨s.idx, ho.symm⟩
    · rcases ih _ o ho with h | ⟨j, hj⟩
      · exact Or.inl (List.mem_cons_of_mem v h)
      · rw [hbuf j] at hj
        split at hj
        · exact Or.inl (hj ▸ List.mem_cons_self v vs)
        · exact Or.inr ⟨j, hj⟩

theorem shufOuts_mem {p : Permutation} {xs : List α} :
    ∀ o ∈ shufOuts p xs, o = none ∨ ∃ x ∈ xs, o = some x := by
  intro o ho
  rcases run_out_mem _ _ o ho with h | ⟨j, hj⟩
  · rw [List.mem_append] at h
    rcases h with h | h
    · rw [List.mem_map] at h
      obtain ⟨x, hx, hxo⟩ := h
      exact Or.inr ⟨x, hx, hxo.symm⟩
    · rw [List.mem_replicate] at h
      exact Or.inl h.2
  · exact Or.inl hj.symm

theorem getD_map_option {γ δ : Type} {l : List (Option γ)} {g : Option γ → Option δ}
    (hg : g none = none) (i : Nat) : (l.map g).getD i none = g (l.getD i none) := by
  rcases Nat.lt_or_ge i l.length with h | h
  · rw [List.getD_eq_getElem?_getD, List.getElem?_map, List.getElem?_eq_getElem h]
    simp only [Option.map_some', Option.getD_some]
    rw [List.getD_eq_getElem _ _ h]
  · have h1 : l[i]? = none := List.getElem?_eq_none h
    have h2 : (l.map g)[i]? = none := List.getElem?_eq_none (by
      rw [List.length_map]
      exact h)
    rw [List.getD_eq_getElem?_getD, List.getD_eq_getElem?_getD, h1, h2]
    simp [hg]

/-! ## Equations of the reconstruction loop -/

theorem chunkRecord_none (b : Bool) : chunkRecord (none, b) = [] := by
  cases b <;> rfl

theorem chunkRecord_some_false (c : Chunk) : chunkRecord (some c, false) = [] := rfl

theorem chunkRecord_some_true (c : Chunk) :
    chunkRecord (some c, true) = writeVarint (Int.ofNat c.length) ++ c := rfl

theorem reconLoop_nil_eof (keyFn : Chunk → κ) (stream : List Nat) (S : Store)
    (st : Shuffler (Option Chunk) × List Nat)
    (h : readChunkB stream = .error .eof) :
    reconLoop keyFn [] stream S st =
      .ok (unshufDrain (st.1.perm.length - 1) st).2 := by
  simp only [reconLoop, h]

theorem reconLoop_cons_none (keyFn : Chunk → κ) (mem : MemoR κ)
    (rest : List (MemoR κ)) (stream : List Nat) (S : Store)
    (st : Shuffler (Option Chunk) × List Nat) (h : mem.ci = none) :
    reconLoop keyFn (mem :: rest) stream S st =
      reconLoop keyFn rest stream S (unshufPut st (some none)) := by
  obtain ⟨mci, mfile, mreq⟩ := mem
  have h1 : mci = none := h
  subst h1
  rfl

theorem reconLoop_cons_req_ok (keyFn : Chunk → κ) (mem : MemoR κ)
    (rest : List (MemoR κ)) (stream : List Nat) (S : Store)
    (st : Shuffler (Option Chunk) × List Nat) (ci : ChunkInfo κ)
    (bytes : Chunk) (stream2 : List Nat)
    (h : mem.ci = some ci) (hr : mem.requested = true)
    (hrc : readChunkB stream = .ok (bytes, stream2))
    (hkey : keyFn bytes = ci.key) (hsz : bytes.length = ci.size) :
    reconLoop keyFn (mem :: rest) stream S st =
      match storeGet keyFn (storePut bytes S) ci.key with
      | some c => reconLoop keyFn rest stream2 (storePut bytes S)
          (unshufPut st (some (some c)))
      | none => reconLoop keyFn rest stream2 (storePut bytes S)
          (unshufPut st none) := by
  obtain ⟨mci, mfile, mreq⟩ := mem
  have h1 : mci = some ci := h
  have h2 : mreq = true := hr
  subst h1
  subst h2
  simp only [reconLoop, hrc]
  rw [if_neg (not_not_intro hkey), if_neg (not_not_intro hsz), if_pos trivial]

theorem reconLoop_cons_noreq (keyFn : Chunk → κ) (mem : MemoR κ)
    (rest : List (MemoR κ)) (stream : List Nat) (S : Store)
    (st : Shuffler (Option Chunk) × List Nat) (ci : ChunkInfo κ)
    (h : mem.ci = some ci) (hr : mem.requested = false) :
    reconLoop keyFn (mem :: rest) stream S st =
      match storeGet keyFn S ci.key with
      | some c => reconLoop keyFn rest stream S (unshufPut st (some (some c)))
      | none => reconLoop keyFn rest stream S (unshufPut st none) := by
  obtain ⟨mci, mfile, mreq⟩ := mem
  have h1 : mci = some ci := h
  have h2 : mreq = false := hr
  subst h1
  subst h2
  simp only [reconLoop]
  rw [if_neg Bool.false_ne_true]

/-- Reading a well-formed record from the head of the stream. -/
theorem readChunkB_record (c : Chunk) (rest : List Nat) (h : c.length ≤ 131072) :
    readChunkB ((writeVarint (Int.ofNat c.length) ++ c) ++ rest) = .ok (c, rest) := by
  have h1 : readVarint ((writeVarint (Int.ofNat c.length) ++ c) ++ rest) =
      .ok ((c.length : Int), c ++ rest) := by
    rw [List.append_assoc]
    exact readVarint_put (by omega) _
  unfold readChunkB
  rw [h1]
  show (if (c.length : Int) < 0 ∨ MAX_CHUNK < (c.length : Int) then
        Except.error (GoErr.invalidChunkLength (c.length : Int))
      else if (c ++ rest).length < ((c.length : Int)).toNat then
        Except.error GoErr.eof
      else Except.ok ((c ++ rest).take ((c.length : Int)).toNat,
        (c ++ rest).drop ((c.length : Int)).toNat)) = Except.ok (c, rest)
  rw [if_neg (show ¬ ((c.length : Int) < 0 ∨ MAX_CHUNK < (c.length : Int)) by
    simp only [MAX_CHUNK]
    omega)]
  rw [if_neg (show ¬ (c ++ rest).length < ((c.length : Int)).toNat by
    rw [Int.toNat_natCast, List.length_append]
    omega)]
  rw [Int.toNat_natCast, List.take_left, List.drop_left]

theorem shufOuts_getD_mem {p : Permutation} {xs : List α} {i : Nat} {x : α}
    (hi : i < (shufOuts p xs).length)
    (h : (shufOuts p xs).getD i none = some x) : x ∈ xs := by
  have hm : some x ∈ shufOuts p xs := by
    rw [← h, List.getD_eq_getElem _ none hi]
    exact List.getElem_mem hi
  rcases shufOuts_mem (some x) hm with h2 | ⟨y, hy, hye⟩
  · exact absurd h2 (Option.some_ne_none x)
  · injection hye with he
    rw [he]
    exact hy

/-- The main invariant of `ReconstructFileFromRequestedChunks` when run
against a sender that answers a wishlist whose per-position law is the one
`Builder.WriteWishList` guarantees: after `i` memos the store contains the
base store and every chunk emitted so far, the remaining stream is the
records of the remaining emissions, and the unshuffler has consumed exactly
the emitted prefix; the loop then ends with the source file's bytes. -/
theorem recon_inv (keyFn : Chunk → κ) (p : Permutation)
    (hp : ValidPerm p) (cs : List Chunk) (S : Store)
    (hinj : ∀ a b : Chunk, keyFn a = keyFn b → a = b)
    (hsize : ∀ c ∈ cs, c.length ≤ 131072)
    (memos : List (MemoR κ)) (bits : List Bool)
    (hml : memos.length = cs.length + (p.length - 1))
    (hbl : bits.length = cs.length + (p.length - 1))
    (hper : ∀ i, i < cs.length + (p.length - 1) →
      (memos.getD i memoDflt).ci =
        Option.map (fun c => (⟨keyFn c, c.length⟩ : ChunkInfo κ))
          ((shufOuts p cs).getD i none) ∧
      (memos.getD i memoDflt).requested = bits.getD i false ∧
      (bits.getD i false = true ↔
        ∃ c : Chunk, (shufOuts p cs).getD i none = some c ∧
          storeGet keyFn S (keyFn c) = none ∧
          ∀ j, j < i → ∀ c2 : Chunk, (shufOuts p cs).getD j none = some c2 →
            ¬ keyFn c2 = keyFn c)) :
    ∀ d i Si, i + d = cs.length + (p.length - 1) →
      (∀ c ∈ S, c ∈ Si) →
      (∀ j, j < i → ∀ c : Chunk, (shufOuts p cs).getD j none = some c → c ∈ Si) →
      reconLoop keyFn (memos.drop i)
        ((((shufOuts p cs).zip bits).drop i).map chunkRecord).flatten
        Si
        ((((shufOuts p cs).take i).map some).foldl unshufPut
          (NewShuffler (inverse p), ([] : List Nat)))
        = .ok cs.flatten := by
  have hocl : (shufOuts p cs).length = cs.length + (p.length - 1) :=
    length_shufOuts p cs
  intro d
  induction d with
  | zero =>
    intro i Si hNeq hSsub hInv
    have hieq : i = cs.length + (p.length - 1) := by omega
    subst hieq
    have hmd : memos.drop (cs.length + (p.length - 1)) = [] :=
      List.drop_eq_nil_of_le (le_of_eq hml)
    have hzd : ((shufOuts p cs).zip bits).drop (cs.length + (p.length - 1)) = [] :=
      List.drop_eq_nil_of_le (by
        rw [List.length_zip, hocl, hbl]
        omega)
    have htk : (shufOuts p cs).take (cs.length + (p.length - 1)) = shufOuts p cs := by
      rw [← hocl, List.take_length]
    rw [hmd, hzd, htk, List.map_nil, List.flatten_nil]
    rw [reconLoop_nil_eof keyFn [] Si _ rfl]
    have hbytes : (unshufDrain
        ((((shufOuts p cs).map some).foldl unshufPut
            (NewShuffler (inverse p), ([] : List Nat))).1.perm.length - 1)
        (((shufOuts p cs).map some).foldl unshufPut
          (NewShuffler (inverse p), ([] : List Nat)))).2 = cs.flatten := by
      have hperm : (((shufOuts p cs).map some).foldl unshufPut
          (NewShuffler (inverse p), ([] : List Nat))).1.perm = inverse p := by
        rw [unshufFold_spec]
        show ((NewShuffler (inverse p) : Shuffler (Option Chunk)).run
          ((shufOuts p cs).map some)).1.perm = inverse p
        rw [run_perm]
        rfl
      rw [hperm, unshufDrain_eq_foldl, ← List.foldl_append, unshufFold_spec]
      show ([] : List Nat) ++
        (((NewShuffler (inverse p) : Shuffler (Option Chunk)).run
            ((shufOuts p cs).map some ++
              List.replicate ((inverse p).length - 1) none)).2.filterMap
          (fun o => o.bind id)).flatten = cs.flatten
      rw [List.nil_append]
      have hfuneq : (fun o : Option (Option Chunk) => o.bind id)
          = fun o => (invFilter (none : Option Chunk) o).bind id := by
        funext o
        rcases o with _ | x
        · rfl
        · rcases x with _ | c <;> rfl
      rw [hfuneq, ← List.filterMap_filterMap]
      have hxs : ∀ x ∈ cs.map some, x ≠ (none : Option Chunk) := by
        intro x hx
        rw [List.mem_map] at hx
        obtain ⟨c, _, hc⟩ := hx
        rw [← hc]
        exact Option.some_ne_none c
      have hfwd : fwdConsumed p (none : Option Chunk) (cs.map some)
          = shufOuts p cs := by
        unfold fwdConsumed
        rw [shufOuts_map some p cs, List.map_map]
        have hpt : ∀ o ∈ shufOuts p cs,
            ((fun o : Option (Option Chunk) => o.getD none) ∘ Option.map some) o
              = id o := by
          intro o _
          rcases o with _ | c <;> rfl
        rw [List.map_congr_left hpt, List.map_id]
      have hrt := round_trip_core hp (none : Option Chunk) (cs.map some) hxs
      rw [hfwd] at hrt
      unfold invConsumed at hrt
      rw [hrt, List.filterMap_map]
      have hid : cs.filterMap (id ∘ some) = cs := by
        simpa using List.filterMap_some cs
      rw [hid]
    rw [hbytes]
  | succ d ih =>
    intro i Si hNeq hSsub hInv
    have hiN : i < cs.length + (p.length - 1) := by omega
    have hoi : i < (shufOuts p cs).length := by rw [hocl]; exact hiN
    have hbi : i < bits.length := by rw [hbl]; exact hiN
    have hmi : i < memos.length := by rw [hml]; exact hiN
    have hzi : i < ((shufOuts p cs).zip bits).length := by
      rw [List.length_zip, hocl, hbl]
      omega
    have hmemdrop : memos.drop i = memos.getD i memoDflt :: memos.drop (i + 1) := by
      rw [List.drop_eq_getElem_cons hmi, List.getD_eq_getElem _ _ hmi]
    have hzdrop : ((shufOuts p cs).zip bits).drop i =
        ((shufOuts p cs).getD i none, bits.getD i false) ::
          ((shufOuts p cs).zip bits).drop (i + 1) := by
      rw [List.drop_eq_getElem_cons hzi, List.getElem_zip,
        List.getD_eq_getElem _ _ hoi, List.getD_eq_getElem _ _ hbi]
    have hfold1 : (((shufOuts p cs).take (i + 1)).map some).foldl unshufPut
        (NewShuffler (inverse p), ([] : List Nat)) =
        unshufPut ((((shufOuts p cs).take i).map some).foldl unshufPut
          (NewShuffler (inverse p), ([] : List Nat)))
          (some ((shufOuts p cs).getD i none)) := by
      rw [List.take_succ, List.getElem?_eq_getElem hoi]
      show ((((shufOuts p cs).take i) ++ [(shufOuts p cs)[i]]).map some).foldl
          unshufPut (NewShuffler (inverse p), ([] : List Nat)) = _
      rw [List.map_append, List.foldl_append, List.map_cons, List.map_nil,
        List.foldl_cons, List.foldl_nil, List.getD_eq_getElem _ none hoi]
    obtain ⟨hciA, hreqB, hbitC⟩ := hper i hiN
    rw [hmemdrop, hzdrop, List.map_cons, List.flatten_cons]
    cases hoc : (shufOuts p cs).getD i none with
    | none =>
      have hcin : (memos.getD i memoDflt).ci = none := by
        rw [hciA, hoc]
        rfl
      rw [chunkRecord_none, List.nil_append]
      rw [reconLoop_cons_none keyFn _ _ _ _ _ hcin]
      rw [hoc] at hfold1
      rw [← hfold1]
      refine ih (i + 1) Si (by omega) hSsub ?_
      intro j hj c hc
      rcases Nat.lt_or_ge j i with hji | hji
      · exact hInv j hji c hc
      · have hje : j = i := by omega
        rw [hje, hoc] at hc
        cases hc
    | some c =>
      have hcmem : c ∈ cs := shufOuts_getD_mem hoi hoc
      have hsz : c.length ≤ 131072 := hsize c hcmem
      have hcisome : (memos.getD i memoDflt).ci
          = some ⟨keyFn c, c.length⟩ := by
        rw [hciA, hoc]
        rfl
      cases hbv : bits.getD i false with
      | true =>
        have hreqmi : (memos.getD i memoDflt).requested = true := by
          rw [hreqB, hbv]
        rw [chunkRecord_some_true]
        rw [reconLoop_cons_req_ok keyFn _ _ _ _ _ _ _ _ hcisome hreqmi
          (readChunkB_record c _ hsz) rfl rfl]
        have hget2 : storeGet keyFn (storePut c Si)
            (⟨keyFn c, c.length⟩ : ChunkInfo κ).key = some c := by
          show storeGet keyFn (storePut c Si) (keyFn c) = some c
          unfold storeGet storePut
          exact List.find?_cons_of_pos _ (decide_eq_true rfl)
        rw [hget2]
        show reconLoop keyFn (memos.drop (i + 1))
            ((((shufOuts p cs).zip bits).drop (i + 1)).map chunkRecord).flatten
            (storePut c Si)
            (unshufPut ((((shufOuts p cs).take i).map some).foldl unshufPut
              (NewShuffler (inverse p), ([] : List Nat))) (some (some c)))
            = .ok cs.flatten
        rw [hoc] at hfold1
        rw [← hfold1]
        refine ih (i + 1) (storePut c Si) (by omega)
          (fun x hx => List.mem_cons_of_mem _ (hSsub x hx)) ?_
        intro j hj c2 hc2
        rcases Nat.lt_or_ge j i with hji | hji
        · exact List.mem_cons_of_mem _ (hInv j hji c2 hc2)
        · have hje : j = i := by omega
          rw [hje, hoc] at hc2
          injection hc2 with he
          rw [← he]
          exact List.mem_cons_self _ _
      | false =>
        have hreqmi : (memos.getD i memoDflt).requested = false := by
          rw [hreqB, hbv]
        rw [chunkRecord_some_false, List.nil_append]
        rw [reconLoop_cons_noreq keyFn _ _ _ _ _ _ hcisome hreqmi]
        have hcSi : c ∈ Si := by
          have hnot : ¬ (bits.getD i false = true) := by
            rw [hbv]
            exact Bool.false_ne_true
          by_cases hstore : storeGet keyFn S (keyFn c) = none
          · by_cases hearly : ∀ j, j < i → ∀ c2 : Chunk,
                (shufOuts p cs).getD j none = some c2 → ¬ keyFn c2 = keyFn c
            · exact absurd (hbitC.mpr ⟨c, hoc, hstore, hearly⟩) hnot
            · push_neg at hearly
              obtain ⟨j, hj, c2, hc2, hkeq⟩ := hearly
              rw [hinj c2 c hkeq] at hc2
              exact hInv j hj c hc2
          · cases hsv : storeGet keyFn S (keyFn c) with
            | none => exact absurd hsv hstore
            | some c0 =>
              have hsv' : S.find? (fun x => decide (keyFn x = keyFn c))
                  = some c0 := hsv
              have hc0S : c0 ∈ S := List.mem_of_find?_eq_some hsv'
              have hc0k : keyFn c0 = keyFn c :=
                of_decide_eq_true
                  (@List.find?_some _ (fun x => decide (keyFn x = keyFn c)) c0 S
                    hsv')
              rw [hinj c0 c hc0k] at hc0S
              exact hSsub c hc0S
        have hgetSi : storeGet keyFn Si
            (⟨keyFn c, c.length⟩ : ChunkInfo κ).key = some c := by
          show storeGet keyFn Si (keyFn c) = some c
          cases hsv : storeGet keyFn Si (keyFn c) with
          | none =>
            have hsv' : Si.find? (fun x => decide (keyFn x = keyFn c))
                = none := hsv
            have hall := List.find?_eq_none.mp hsv' c hcSi
            exact absurd (decide_eq_true rfl) hall
          | some c0 =>
            have hsv' : Si.find? (fun x => decide (keyFn x = keyFn c))
                = some c0 := hsv
            have hc0k : keyFn c0 = keyFn c :=
              of_decide_eq_true
                (@List.find?_some _ (fun x => decide (keyFn x = keyFn c)) c0 Si
                  hsv')
            rw [hinj c0 c hc0k]
        rw [hgetSi]
        show reconLoop keyFn (memos.drop (i + 1))
            ((((shufOuts p cs).zip bits).drop (i + 1)).map chunkRecord).flatten
            Si
            (unshufPut ((((shufOuts p cs).take i).map some).foldl unshufPut
              (NewShuffler (inverse p), ([] : List Nat))) (some (some c)))
            = .ok cs.flatten
        rw [hoc] at hfold1
        rw [← hfold1]
        refine ih (i + 1) Si (by omega) hSsub ?_
        intro j hj c2 hc2
        rcases Nat.lt_or_ge j i with hji | hji
        · exact hInv j hji c2 hc2
        · have hje : j = i := by omega
          rw [hje, hoc] at hc2
          injection hc2 with he
          rw [← he]
          exact hcSi

/-! ## The claims -/

/-- C2 (amended): shuffle round trip.  For any valid permutation `p` and any
sequence `xs` none of whose elements equals the placeholder, feeding `xs`
through a forward stream shuffler (with `End`) and its output through an
inverse stream shuffler (with `End`) hands the inverse shuffler's consumer
exactly `xs`, in order.  The no-placeholder proviso is necessary: an input
equal to the placeholder is dropped by the inverse shuffler's `apply`
(shuffle.go line 163), see the counterexample. -/
theorem shuffle_round_trip_amended [DecidableEq α] (p : Permutation)
    (hp : ValidPerm p) (ph : α) (xs : List α) (hxs : ∀ x ∈ xs, x ≠ ph) :
    invConsumed p ph (fwdConsumed p ph xs) = xs :=
  round_trip_core hp ph xs hxs

/-- C2 witness: the round trip on `p = [1, 0]`, placeholder `0`,
input `[1, 2, 3]`. -/
theorem shuffle_round_trip_amended_witness :
    ValidPerm [1, 0] ∧
      invConsumed [1, 0] 0 (fwdConsumed [1, 0] (0 : Nat) [1, 2, 3]) = [1, 2, 3] :=
  ⟨by unfold ValidPerm; decide,
    shuffle_round_trip_amended [1, 0] (by unfold ValidPerm; decide) 0 [1, 2, 3]
      (by decide)⟩

/-- C2 counterexample: with `p = [0]` and placeholder `0`, the single-element
sequence `[0]` — whose element equals the placeholder — is NOT restored: the
inverse shuffler's consumer receives nothing, because `apply` drops values
equal to the placeholder. -/
theorem shuffle_round_trip_counterexample :
    invConsumed [0] 0 (fwdConsumed [0] (0 : Nat) [0]) = [] ∧
      ([] : List Nat) ≠ [0] := by
  constructor
  · rfl
  · decide

/-- C3 (amended): the wishlist law, with the two corrections the code forces.
The bit stream has one bit per shuffler emission — the `nChunks` manifest
entries in shuffled order and the `k-1` trailing placeholder emissions of
`End()` — and bit `i` is `1` iff emission `i` is a real chunk info whose key
is (a) not the zero key, (b) absent from the receiver's store, and (c) not
equal to the key of any earlier emission.  Condition (a) is missing from the
claim: for a zero-key manifest entry the code writes `0` even when the key is
absent from the store (see the counterexample). -/
theorem wishlist_law_amended (keyFn : Chunk → κ) (emptyKey : κ)
    (p : Permutation) (infos : List (ChunkInfo κ)) (S : Store)
    (i : Nat) (hi : i < infos.length + (p.length - 1)) :
    ((WriteWishList keyFn emptyKey p infos S).bits.getD i false = true ↔
      ∃ ci : ChunkInfo κ, (shufOuts p infos).getD i none = some ci ∧
        ¬ ci.key = emptyKey ∧ storeGet keyFn S ci.key = none ∧
        ∀ j, j < i → ∀ cj : ChunkInfo κ,
          (shufOuts p infos).getD j none = some cj → ¬ cj.key = ci.key) :=
  ((wl_fold_char keyFn emptyKey S (shufOuts p infos)).2.2.2 i
    (by rw [length_shufOuts]; exact hi)).2.2

/-- C3 witness: one fresh chunk (key 1, absent from the empty store) under the
identity permutation `[0]` gets bit `1`. -/
theorem wishlist_law_amended_witness :
    (WriteWishList (fun c : Chunk => c.getD 0 0) 0 [0]
      [⟨1, 1⟩] []).bits.getD 0 false = true :=
  (wishlist_law_amended (fun c : Chunk => c.getD 0 0) 0 [0] [⟨1, 1⟩] [] 0
      (by decide)).mpr
    ⟨⟨1, 1⟩, by decide, by decide, by decide, fun j hj => absurd hj (by omega)⟩

/-- C3 counterexample: a manifest entry whose key IS the zero key, with an
empty store.  The key is not in the store and has no earlier occurrence, so
the claimed law demands bit `1`; `consumeFunc`'s `key == emptyKey` branch
(receive.go line 114) writes `0`. -/
theorem wishlist_law_counterexample :
    (WriteWishList (fun c : Chunk => c.getD 0 0) 0 [0]
        [⟨0, 1⟩] []).bits = [false] ∧
      storeGet (fun c : Chunk => c.getD 0 0) [] 0 = none := by
  constructor
  · rfl
  · rfl

/-- C5 (amended): `readChunkLength` accepts a declared chunk length `l` iff
`0 ≤ l ≤ MAX_CHUNK` — the code's test is `l < 0 || l > adler32.MAX_CHUNK`
(remotesync.go line 63), so length `0` is ACCEPTED, refuting the claimed
lower bound `0 < size` (see the counterexample); lengths outside `[0,
MAX_CHUNK]` fail with the invalid-chunk-length error. -/
theorem chunk_length_amended (stream : List Nat) (l : Int) (rest : List Nat)
    (h : readVarint stream = .ok (l, rest)) :
    readChunkLength stream =
      if 0 ≤ l ∧ l ≤ MAX_CHUNK then .ok (l, rest)
      else .error (.invalidChunkLength l) := by
  unfold readChunkLength
  rw [h]
  show (if l < 0 ∨ MAX_CHUNK < l then Except.error (GoErr.invalidChunkLength l)
    else Except.ok (l, rest)) = _
  by_cases hc : 0 ≤ l ∧ l ≤ MAX_CHUNK
  · rw [if_neg (show ¬ (l < 0 ∨ MAX_CHUNK < l) by
      simp only [MAX_CHUNK] at hc ⊢; omega), if_pos hc]
  · rw [if_pos (show l < 0 ∨ MAX_CHUNK < l by
      simp only [MAX_CHUNK] at hc ⊢; omega), if_neg hc]

/-- C5 witness: the varint encoding `[4]` declares length `2`, which is
accepted. -/
theorem chunk_length_amended_witness :
    readVarint [4] = .ok (2, []) ∧
      readChunkLength [4] =
        if (0 : Int) ≤ 2 ∧ (2 : Int) ≤ MAX_CHUNK then .ok (2, ([] : List Nat))
        else .error (.invalidChunkLength 2) :=
  ⟨by rfl, chunk_length_amended [4] 2 [] (by rfl)⟩

/-- C5 counterexample: the varint encoding `[0]` declares length `0`, outside
the claimed legal range `[1, MAX_CHUNK_SIZE]`, yet `readChunkLength` accepts
it instead of failing. -/
theorem chunk_length_counterexample :
    readChunkLength [0] = .ok (0, []) := by
  rfl

/-- C6 (amended): the wishlist bit stream has one bit per shuffler EMISSION —
`nChunks + k - 1` bits for a manifest of `nChunks` chunks under a session
permutation of size `k`, not `nChunks` bits: `consumeFunc` also runs, and
writes a bit, for each of the `k-1` placeholder emissions of
`shuffler.End()`.  The bytes are the bits packed MSB-first, zero-padded, so
their count is `ceil((nChunks + k - 1) / 8)` — refuting the claimed
`ceil(nChunks / 8)` whenever `k > 1` forces an extra byte (see the
counterexample). -/
theorem wishlist_length_amended (keyFn : Chunk → κ) (emptyKey : κ)
    (p : Permutation) (infos : List (ChunkInfo κ)) (S : Store) :
    (WriteWishList keyFn emptyKey p infos S).bits.length
        = infos.length + (p.length - 1) ∧
      wishListBytes keyFn emptyKey p infos S
        = packBits (WriteWishList keyFn emptyKey p infos S).bits ∧
      (wishListBytes keyFn emptyKey p infos S).length
        = (infos.length + (p.length - 1) + 7) / 8 := by
  have hb : (WriteWishList keyFn emptyKey p infos S).bits.length
      = (shufOuts p infos).length :=
    (wl_fold_char keyFn emptyKey S (shufOuts p infos)).2.1
  rw [length_shufOuts] at hb
  refine ⟨hb, bitWriterRun_eq_packBits _, ?_⟩
  show (bitWriterRun (WriteWishList keyFn emptyKey p infos S).bits).length = _
  rw [bitWriterRun_eq_packBits, packBits_length _ _ (le_refl _), hb]

/-- C6 counterexample: 8 chunks with distinct fresh keys and a permutation of
size `k = 2` produce `8 + 2 - 1 = 9` bits, hence TWO wishlist bytes, where
the claim predicts `ceil(8/8) = 1`. -/
theorem wishlist_length_counterexample :
    (wishListBytes (fun c : Chunk => c.getD 0 0) 0 [1, 0]
      [⟨1, 1⟩, ⟨2, 1⟩, ⟨3, 1⟩, ⟨4, 1⟩, ⟨5, 1⟩, ⟨6, 1⟩, ⟨7, 1⟩, ⟨8, 1⟩]
      []).length = 2 ∧ (8 + 7) / 8 = 1 := by
  constructor
  · rfl
  · rfl

/-- C7: the inverse permutation formula.  For every valid permutation `p` of
length `k` and every `i < k`, `Permutation.Inverse` (shuffle.go lines 77-83)
returns `q` with `q[p[i]] = (k - 1 + i) % k`. -/
theorem inverse_permutation_formula (p : Permutation) (hp : ValidPerm p)
    (i : Nat) (hi : i < p.length) :
    (inverse p).getD (p.getD i 0) 0 = (p.length - 1 + i) % p.length :=
  inverse_getD hp hi

/-- C7 witness: `p = [2, 0, 1]`, `i = 1`: `q[p[1]] = q[0] = (3 - 1 + 1) % 3
= 0`. -/
theorem inverse_permutation_formula_witness :
    ValidPerm [2, 0, 1] ∧ 1 < 3 ∧
      (inverse [2, 0, 1]).getD ([2, 0, 1].getD 1 0) 0 = (3 - 1 + 1) % 3 :=
  ⟨by unfold ValidPerm; decide, by decide,
    inverse_permutation_formula [2, 0, 1] (by unfold ValidPerm; decide) 1
      (by decide)⟩

/-- C8 (amended): shuffler warm-up.  The output of the `t`-th `Put` of a
fresh shuffler (t counted from 0, `t < k`) is the uninitialized `nil`
sentinel iff NO step `s ≤ t` stored into slot `t` (`lastStore p t (t+1) =
none`, i.e. `p[s] ≠ t` for all `s ≤ t`); otherwise it returns the input of
the latest such step.  The claim's unconditional form — the first `k-1`
calls return the sentinel — is false: a `Put` whose slot was already written
in the same warm-up (e.g. an identity-like prefix of `p`) returns that value
instead, see the counterexample.  For `t = k-1` (the `k`-th call) this gives
the claimed behaviour: the output is the value in slot `p[s]` for the step
`s` with `p[s] = k-1`. -/
theorem shuffler_warmup_amended (p : Permutation) (hp : ValidPerm p)
    (ws : List (Option α)) (t : Nat) (ht : t < ws.length) (htk : t < p.length) :
    ((NewShuffler p (α := α)).run ws).2.getD t none =
      match lastStore p t (t + 1) with
      | some s => ws.getD s none
      | none => none := by
  have h := run_output hp ws ht
  rw [Nat.mod_eq_of_lt htk] at h
  exact h

/-- C8 witness: `p = [1, 0]`, inputs `[some 7, some 9]`, `t = 0`: slot 0 is
untouched by step 0 (`p[0] = 1`), so the first `Put` returns the sentinel. -/
theorem shuffler_warmup_amended_witness :
    ValidPerm [1, 0] ∧ (0 : Nat) < 2 ∧ (0 : Nat) < 2 ∧
      ((NewShuffler [1, 0] : Shuffler Nat).run [some 7, some 9]).2.getD 0 none =
        match lastStore [1, 0] 0 1 with
        | some s => [some 7, some 9].getD s none
        | none => none :=
  ⟨by unfold ValidPerm; decide, by decide, by decide,
    shuffler_warmup_amended [1, 0] (by unfold ValidPerm; decide) [some 7, some 9]
      0 (by decide) (by decide)⟩

/-- C8 counterexample: with the identity permutation `[0, 1]` (`k = 2`), the
FIRST `Put` does not return the `nil` sentinel: `Put` stores into slot
`p[0] = 0` and then reads slot `idx = 0`, returning the value it just
stored. -/
theorem shuffler_warmup_counterexample :
    ((NewShuffler [0, 1] : Shuffler Nat).put (some 5)).2 = some 5 := by
  rfl

/-- C9: the SKey JSON round trip FAILS — a code bug in `SKey.UnmarshalJSON`
(encoding.go 36-39).  `t := []byte(k[:])` copies the key into a fresh slice
and `json.Unmarshal(b, &t)` decodes the JSON string (as base64, the
`encoding/json` treatment of `[]byte`) into a new slice assigned to the
local `t`; the receiver `k` is never written.  A 64-character hex string is
acceptable base64 (its characters lie in the base64 alphabet and 64 % 4 =
0), so decoding reports success while the receiving key keeps its previous
value: unmarshalling the marshalled form of a nonzero key into a zero key
returns `ok` with the key still zero. -/
theorem skey_json_roundtrip_fails :
    SKeyUnmarshalJSON
        (SKeyMarshalJSON ([11, 22, 33, 44, 55, 66, 77, 88] ++ List.replicate 24 0))
        (List.replicate 32 0)
      = .ok (List.replicate 32 0) ∧
    ([11, 22, 33, 44, 55, 66, 77, 88] ++ List.replicate 24 0 : SKey)
      ≠ List.replicate 32 0 := by
  constructor
  · rfl
  · decide

/-- C10: calling `WriteWishList` twice.  Its first action is `Builder.start`
(receive.go 165-176): on a builder that is not disposed but already started,
`start` PANICS with "WriteWishList called twice" — it does not return an
error, so only the first call can succeed. -/
theorem write_wishlist_twice_panics (st : BuilderState)
    (hd : st.disposed = false) (hs : st.started = true) :
    builderStart st = .panicTwice := by
  simp [builderStart, hd, hs]

/-- C10 witness: the started, undisposed builder state. -/
theorem write_wishlist_twice_panics_witness :
    (BuilderState.mk false true).disposed = false ∧
      builderStart ⟨false, true⟩ = .panicTwice :=
  ⟨rfl, write_wishlist_twice_panics ⟨false, true⟩ rfl rfl⟩

/-- C4 (amended): end-of-stream handling once all memos are consumed.  The
loop's final probe calls `readChunk`; reconstruction completes successfully
iff that read reports `io.EOF`, and fails with "unsolicited chunk data" iff
it reads a COMPLETE record.  This differs from the claim in one point: a
TRUNCATED trailing record also reports `io.EOF` (`io.CopyN` returns `io.EOF`
on a short stream, remotesync.go 428-433), so unread bytes that do not form
a complete record make reconstruction SUCCEED, not fail (see the
counterexample). -/
theorem clean_eof_amended (keyFn : Chunk → κ) (p : Permutation)
    (stream : List Nat) (S : Store) :
    ((∃ r, readChunkB stream = .ok r) →
        ReconstructFileFromRequestedChunks keyFn p [] stream S =
          .error .unsolicitedChunkData) ∧
      (readChunkB stream = .error .eof →
        ReconstructFileFromRequestedChunks keyFn p [] stream S = .ok []) := by
  constructor
  · rintro ⟨r, hr⟩
    unfold ReconstructFileFromRequestedChunks reconLoop
    rw [hr]
  · intro hr
    unfold ReconstructFileFromRequestedChunks reconLoop
    rw [hr]
    rw [unshufDrain_none _ _ (fun _ => rfl)]

/-- C4 witness: the empty stream completes (the probe reports EOF); a stream
holding one complete record (`[2, 9]`: varint length 1, one data byte) fails
with "unsolicited chunk data". -/
theorem clean_eof_amended_witness :
    ReconstructFileFromRequestedChunks (fun c : Chunk => c.getD 0 0) [0] [] [] []
        = .ok [] ∧
      ReconstructFileFromRequestedChunks (fun c : Chunk => c.getD 0 0) [0] []
        [2, 9] [] = .error .unsolicitedChunkData :=
  ⟨(clean_eof_amended (fun c : Chunk => c.getD 0 0) [0] [] []).2 (by rfl),
    (clean_eof_amended (fun c : Chunk => c.getD 0 0) [0] [2, 9] []).1
      ⟨([9], []), by rfl⟩⟩

/-- C4 counterexample: with no memos and the stream `[4, 170]` — a record
declaring length 2 but holding one byte — two unread bytes remain, yet
reconstruction succeeds instead of failing with "unsolicited chunk data":
the probing `readChunk` hits `io.EOF` while copying the truncated body. -/
theorem clean_eof_counterexample :
    ReconstructFileFromRequestedChunks (fun c : Chunk => c.getD 0 0) [0] []
        [4, 170] [] = .ok [] ∧
      ([4, 170] : List Nat) ≠ [] := by
  constructor
  · rfl
  · decide

/-- C1: end-to-end correctness.  For every source file (a list of chunks
with collision-free keys — `keyFn` injective — none equal to the zero key
and none larger than the 128 KiB chunk cap) and every valid session
permutation: the receiver's wishlist task (`WriteWishList`) produces memos
and bits; the sender answers the bits with `WriteRequestedChunks`; and
`ReconstructFileFromRequestedChunks`, run over those memos and that chunk
stream against the same store, succeeds and writes exactly the source
file's bytes `cs.flatten` to the temporary. -/
theorem end_to_end_reconstruction (keyFn : Chunk → κ) (emptyKey : κ)
    (p : Permutation) (hp : ValidPerm p) (cs : List Chunk) (S : Store)
    (hinj : ∀ a b : Chunk, keyFn a = keyFn b → a = b)
    (hkeys : ∀ c ∈ cs, ¬ keyFn c = emptyKey)
    (hsize : ∀ c ∈ cs, c.length ≤ 131072) :
    ReconstructFileFromRequestedChunks keyFn p
      (WriteWishList keyFn emptyKey p
        (cs.map fun c => ⟨keyFn c, c.length⟩) S).memos
      (WriteRequestedChunks p cs
        (WriteWishList keyFn emptyKey p
          (cs.map fun c => ⟨keyFn c, c.length⟩) S).bits)
      S = .ok cs.flatten := by
  have hocl : (shufOuts p cs).length = cs.length + (p.length - 1) :=
    length_shufOuts p cs
  have houts : shufOuts p (cs.map fun c => (⟨keyFn c, c.length⟩ : ChunkInfo κ))
      = (shufOuts p cs).map
          (Option.map fun c => (⟨keyFn c, c.length⟩ : ChunkInfo κ)) :=
    shufOuts_map _ p cs
  have hgetrel : ∀ j,
      (shufOuts p (cs.map fun c => (⟨keyFn c, c.length⟩ : ChunkInfo κ))).getD
          j none
        = Option.map (fun c => (⟨keyFn c, c.length⟩ : ChunkInfo κ))
            ((shufOuts p cs).getD j none) := by
    intro j
    rw [houts]
    exact getD_map_option rfl j
  have houtsl :
      (shufOuts p (cs.map fun c => (⟨keyFn c, c.length⟩ : ChunkInfo κ))).length
        = cs.length + (p.length - 1) := by
    rw [houts, List.length_map, hocl]
  have hc := wl_fold_char keyFn emptyKey S
    (shufOuts p (cs.map fun c => (⟨keyFn c, c.length⟩ : ChunkInfo κ)))
  have hml : (WriteWishList keyFn emptyKey p
      (cs.map fun c => ⟨keyFn c, c.length⟩) S).memos.length
      = cs.length + (p.length - 1) := by
    have h : (WriteWishList keyFn emptyKey p
        (cs.map fun c => ⟨keyFn c, c.length⟩) S).memos.length
        = (shufOuts p
            (cs.map fun c => (⟨keyFn c, c.length⟩ : ChunkInfo κ))).length :=
      hc.1
    rw [houtsl] at h
    exact h
  have hbl : (WriteWishList keyFn emptyKey p
      (cs.map fun c => ⟨keyFn c, c.length⟩) S).bits.length
      = cs.length + (p.length - 1) := by
    have h : (WriteWishList keyFn emptyKey p
        (cs.map fun c => ⟨keyFn c, c.length⟩) S).bits.length
        = (shufOuts p
            (cs.map fun c => (⟨keyFn c, c.length⟩ : ChunkInfo κ))).length :=
      hc.2.1
    rw [houtsl] at h
    exact h
  have hper : ∀ i, i < cs.length + (p.length - 1) →
      ((WriteWishList keyFn emptyKey p
          (cs.map fun c => ⟨keyFn c, c.length⟩) S).memos.getD i memoDflt).ci =
        Option.map (fun c => (⟨keyFn c, c.length⟩ : ChunkInfo κ))
          ((shufOuts p cs).getD i none) ∧
      ((WriteWishList keyFn emptyKey p
          (cs.map fun c => ⟨keyFn c, c.length⟩) S).memos.getD
            i memoDflt).requested =
        (WriteWishList keyFn emptyKey p
          (cs.map fun c => ⟨keyFn c, c.length⟩) S).bits.getD i false ∧
      ((WriteWishList keyFn emptyKey p
          (cs.map fun c => ⟨keyFn c, c.length⟩) S).bits.getD i false = true ↔
        ∃ c : Chunk, (shufOuts p cs).getD i none = some c ∧
          storeGet keyFn S (keyFn c) = none ∧
          ∀ j, j < i → ∀ c2 : Chunk, (shufOuts p cs).getD j none = some c2 →
            ¬ keyFn c2 = keyFn c) := by
    intro i hi
    obtain ⟨h1, h2, h3⟩ := hc.2.2.2 i (by rw [houtsl]; exact hi)
    refine ⟨?_, h2, ?_⟩
    · have h1' : ((WriteWishList keyFn emptyKey p
          (cs.map fun c => ⟨keyFn c, c.length⟩) S).memos.getD i memoDflt).ci
          = (shufOuts p
              (cs.map fun c => (⟨keyFn c, c.length⟩ : ChunkInfo κ))).getD
            i none := h1
      rw [h1', hgetrel i]
    · have h3' : ((WriteWishList keyFn emptyKey p
          (cs.map fun c => ⟨keyFn c, c.length⟩) S).bits.getD i false = true ↔
          ∃ ci : ChunkInfo κ,
            (shufOuts p
              (cs.map fun c => (⟨keyFn c, c.length⟩ : ChunkInfo κ))).getD
                i none = some ci ∧
            ¬ ci.key = emptyKey ∧ storeGet keyFn S ci.key = none ∧
            ∀ j, j < i → ∀ cj : ChunkInfo κ,
              (shufOuts p
                (cs.map fun c => (⟨keyFn c, c.length⟩ : ChunkInfo κ))).getD
                  j none = some cj →
              ¬ cj.key = ci.key) := h3
      rw [h3']
      constructor
      · intro hex
        obtain ⟨ci, hci, hne, hstore, hnoear⟩ := hex
        rw [hgetrel i, Option.map_eq_some'] at hci
        obtain ⟨c, hcoc, hfic⟩ := hci
        refine ⟨c, hcoc, ?_, ?_⟩
        · rw [← hfic] at hstore
          exact hstore
        · intro j hj c2 hc2 hk
          have houtj : (shufOuts p
              (cs.map fun c => (⟨keyFn c, c.length⟩ : ChunkInfo κ))).getD
                j none = some ⟨keyFn c2, c2.length⟩ := by
            rw [hgetrel j, hc2]
            rfl
          refine hnoear j hj _ houtj ?_
          rw [← hfic]
          exact hk
      · intro hex
        obtain ⟨c, hcoc, hstore, hnoear⟩ := hex
        have hcmem : c ∈ cs := shufOuts_getD_mem (by
          rw [hocl]; exact hi) hcoc
        refine ⟨⟨keyFn c, c.length⟩, ?_, hkeys c hcmem, hstore, ?_⟩
        · rw [hgetrel i, hcoc]
          rfl
        · intro j hj cj hcj hkj
          rw [hgetrel j, Option.map_eq_some'] at hcj
          obtain ⟨c2, hc2, hfc2⟩ := hcj
          refine hnoear j hj c2 hc2 ?_
          rw [← hfc2] at hkj
          exact hkj
  have hmain := recon_inv keyFn p hp cs S hinj hsize
    (WriteWishList keyFn emptyKey p
      (cs.map fun c => ⟨keyFn c, c.length⟩) S).memos
    (WriteWishList keyFn emptyKey p
      (cs.map fun c => ⟨keyFn c, c.length⟩) S).bits
    hml hbl hper (cs.length + (p.length - 1)) 0 S (by omega)
    (fun c hc => hc) (fun j hj c hc => absurd hj (Nat.not_lt_zero j))
  rw [List.drop_zero, List.drop_zero, List.take_zero, List.map_nil,
    List.foldl_nil] at hmain
  exact hmain

/-- C1 witness: three one-byte chunks `[1] [2] [3]`, identity-like key
function, permutation `[1, 0]`, empty store: the reconstructed bytes are
`[1, 2, 3]`. -/
theorem end_to_end_reconstruction_witness :
    ValidPerm [1, 0] ∧
      ReconstructFileFromRequestedChunks (fun c : Chunk => c) [1, 0]
        (WriteWishList (fun c : Chunk => c) [] [1, 0]
          ([[1], [2], [3]].map fun c => ⟨c, c.length⟩) []).memos
        (WriteRequestedChunks [1, 0] [[1], [2], [3]]
          (WriteWishList (fun c : Chunk => c) [] [1, 0]
            ([[1], [2], [3]].map fun c => ⟨c, c.length⟩) []).bits)
        [] = .ok [1, 2, 3] :=
  ⟨by unfold ValidPerm; decide,
    end_to_end_reconstruction (fun c : Chunk => c) [] [1, 0]
      (by unfold ValidPerm; decide) [[1], [2], [3]] []
      (fun a b h => h) (by decide) (by decide)⟩

end Cafs